import Mathlib

/-!
Verification development for the SymTable ADT (COS217 A3).

The repository provides two realizations of the same symbol-table contract:
`src/symtablelist.c` (singly linked list of bindings) and `src/symtablehash.c`
(separate-chaining hash table with staged growth).  Both are shallowly
embedded below:

* a C string key is a `List Nat` of its bytes (terminator excluded);
  key comparison (`strcmp == 0`) is list equality;
* a stored `const void *` value is an `Option V`: `none` is the NULL
  pointer, which is both a storable value and the "absent" return marker;
* `size_t` arithmetic wraps modulo `2 ^ 64`;
* heap state is made explicit: each operation returns its C result paired
  with the table after the call;
* the single allocation that the spec's resize-failure behaviour depends on
  (the `malloc` of the new bucket array in `expandTable`) is modelled by an
  explicit `allocOk : Bool` argument; all other allocations are taken to
  succeed.

Both C files contain the same binding-chain search loops (linear scan with
`strcmp`), so those loops are embedded once, as functions on `Bindings V`,
and reused by the two table types.
-/

/-- A C string key: the list of its bytes (the terminating NUL excluded). -/
abbrev Key : Type := List Nat

/-- One chain of bindings: key plus (possibly NULL) value, in list order. -/
abbrev Bindings (V : Type) : Type := List (Key × Option V)

/-- The key-search loop shared by `SymTable_contains` in both C files:
walk the chain, return 1 as soon as `strcmp` matches, 0 at the end. -/
def containsB {V : Type} : Bindings V → Key → Bool
  | [], _ => false
  | b :: rest, k => if b.1 = k then true else containsB rest k

/-- The value-search loop of `SymTable_get` in both C files: walk the chain,
return the stored value of the first match, NULL (`none`) at the end. -/
def getB {V : Type} : Bindings V → Key → Option V
  | [], _ => none
  | b :: rest, k => if b.1 = k then b.2 else getB rest k

/-- Specification-side observer: the first binding for `k` in a chain,
distinguishing "no binding" (`none`) from "binding whose value is NULL"
(`some none`).  The C code cannot return this; it is used to state what a
chain holds. -/
def findB {V : Type} : Bindings V → Key → Option (Option V)
  | [], _ => none
  | b :: rest, k => if b.1 = k then some b.2 else findB rest k

/-- The loop of `SymTable_replace` in both C files: find the first binding
for `k`, overwrite its value in place and return the old one; if the chain
has no such binding return NULL and leave the chain as it was.  The result
chain is returned explicitly because the embedding is pure. -/
def replaceB {V : Type} : Bindings V → Key → Option V → Option V × Bindings V
  | [], _, _ => (none, [])
  | b :: rest, k, v =>
    if b.1 = k then (b.2, (b.1, v) :: rest)
    else
      let p := replaceB rest k v
      (p.1, b :: p.2)

/-- The unlink loop of `SymTable_remove` in both C files: find the first
binding for `k`, splice it out and report its value (`some` of the stored
value); `none` when the chain has no binding for `k`. -/
def removeB {V : Type} : Bindings V → Key → Option (Option V) × Bindings V
  | [], _ => (none, [])
  | b :: rest, k =>
    if b.1 = k then (some b.2, rest)
    else
      let p := removeB rest k
      (p.1, b :: p.2)

namespace symtablelist

/-- `struct SymTable` of src/symtablelist.c: head of the binding list plus
the maintained binding count. -/
structure SymTable (V : Type) where
  pHead : Bindings V
  uLength : Nat
  deriving Repr, DecidableEq

/-- `SymTable_new` (list): empty list, zero length (the successful branch;
allocation failure returns NULL to the caller and creates no table). -/
def SymTable_new (V : Type) : SymTable V :=
  { pHead := [], uLength := 0 }

/-- `SymTable_getLength` (list): the pre-computed length field. -/
def SymTable_getLength {V : Type} (st : SymTable V) : Nat :=
  st.uLength

/-- `SymTable_put` (list): fail on a duplicate key, otherwise prepend a new
binding and increment the count.  (The binding/key allocations are modelled
as succeeding.) -/
def SymTable_put {V : Type} (st : SymTable V) (k : Key) (v : Option V) :
    Bool × SymTable V :=
  if containsB st.pHead k then (false, st)
  else (true, { pHead := (k, v) :: st.pHead, uLength := st.uLength + 1 })

/-- `SymTable_replace` (list). -/
def SymTable_replace {V : Type} (st : SymTable V) (k : Key) (v : Option V) :
    Option V × SymTable V :=
  let p := replaceB st.pHead k v
  (p.1, { pHead := p.2, uLength := st.uLength })

/-- `SymTable_contains` (list). -/
def SymTable_contains {V : Type} (st : SymTable V) (k : Key) : Bool :=
  containsB st.pHead k

/-- `SymTable_get` (list). -/
def SymTable_get {V : Type} (st : SymTable V) (k : Key) : Option V :=
  getB st.pHead k

/-- `SymTable_remove` (list): when the key is found, unlink the binding and
decrement the count, returning the stored value; otherwise return NULL with
the table untouched. -/
def SymTable_remove {V : Type} (st : SymTable V) (k : Key) :
    Option V × SymTable V :=
  match removeB st.pHead k with
  | (none, _) => (none, st)
  | (some v, l) => (v, { pHead := l, uLength := st.uLength - 1 })

/-- `SymTable_map` (list) visits the bindings in list order; the embedding
returns the visit sequence handed to `pfApply`. -/
def SymTable_map {V : Type} (st : SymTable V) : Bindings V :=
  st.pHead

/-- Specification-side observer for the list table. -/
def find {V : Type} (st : SymTable V) (k : Key) : Option (Option V) :=
  findB st.pHead k

end symtablelist

namespace symtablehash

/-- `primes` of src/symtablehash.c: bucket counts used during expansion. -/
def primes : List Nat := [509, 1021, 2039, 4093, 8191, 16381, 32749, 65521]

/-- `numPrimes`: number of entries of `primes`. -/
def numPrimes : Nat := primes.length

/-- `size_t` arithmetic wraps modulo `2 ^ 64`. -/
def SIZE_MOD : Nat := 2 ^ 64

/-- `SymTable_hash`: accumulate `uHash = uHash * 65599 + byte` over the key
bytes in `size_t` arithmetic, then reduce modulo the bucket count. -/
def SymTable_hash (k : Key) (uBucketCount : Nat) : Nat :=
  (k.foldl (fun uHash b => (uHash * 65599 + b) % SIZE_MOD) 0) % uBucketCount

/-- `struct SymTable` of src/symtablehash.c: bucket array, bucket count,
binding count, index into `primes`. -/
structure SymTable (V : Type) where
  ppBuckets : List (Bindings V)
  uBucketCount : Nat
  uLength : Nat
  uPrimeIndex : Nat
  deriving Repr, DecidableEq

/-- The bucket `ppBuckets[i]` (an out-of-range read never happens in the C
code; the embedding returns the empty chain there). -/
def bucketAt {V : Type} (st : SymTable V) (i : Nat) : Bindings V :=
  st.ppBuckets.getD i []

/-- One step of the rehash loop of `expandTable`: push one binding onto the
head of its new bucket, the bucket index computed against the new count. -/
def rehashInsert {V : Type} (newBucketCount : Nat) (acc : List (Bindings V))
    (b : Key × Option V) : List (Bindings V) :=
  let newIndex := SymTable_hash b.1 newBucketCount
  acc.set newIndex (b :: acc.getD newIndex [])

/-- `expandTable`: at the last `primes` entry return success without change;
otherwise allocate the next bucket array (`allocOk` models that `malloc`),
on failure return 0 with the table untouched, on success relink every
binding — old bucket order, chain order within a bucket — into the bucket
of its rehashed index and install the new array and counts. -/
def expandTable {V : Type} (allocOk : Bool) (st : SymTable V) :
    Bool × SymTable V :=
  if st.uPrimeIndex + 1 ≥ numPrimes then (true, st)
  else if allocOk then
    let newPrimeIndex := st.uPrimeIndex + 1
    let newBucketCount := primes.getD newPrimeIndex 0
    let ppNewBuckets :=
      st.ppBuckets.foldl
        (fun acc chain => chain.foldl (rehashInsert newBucketCount) acc)
        (List.replicate newBucketCount [])
    (true, { ppBuckets := ppNewBuckets, uBucketCount := newBucketCount,
             uLength := st.uLength, uPrimeIndex := newPrimeIndex })
  else (false, st)

/-- `SymTable_new` (hash): first `primes` entry as bucket count, all buckets
empty, zero length (the successful branch of the two allocations). -/
def SymTable_new (V : Type) : SymTable V :=
  { ppBuckets := List.replicate (primes.getD 0 0) [],
    uBucketCount := primes.getD 0 0,
    uLength := 0,
    uPrimeIndex := 0 }

/-- `SymTable_getLength` (hash): the pre-computed length field. -/
def SymTable_getLength {V : Type} (st : SymTable V) : Nat :=
  st.uLength

/-- `SymTable_put` (hash): search only the key's bucket for a duplicate;
on success prepend the new binding to that bucket, increment the count and,
when the count now exceeds the bucket count, run `expandTable`, ignoring
its result.  Returns 1 exactly when the binding was inserted. -/
def SymTable_put {V : Type} (allocOk : Bool) (st : SymTable V) (k : Key)
    (v : Option V) : Bool × SymTable V :=
  let index := SymTable_hash k st.uBucketCount
  if containsB (bucketAt st index) k then (false, st)
  else
    let inserted : SymTable V :=
      { st with ppBuckets := st.ppBuckets.set index ((k, v) :: bucketAt st index),
                uLength := st.uLength + 1 }
    if inserted.uLength > inserted.uBucketCount then
      (true, (expandTable allocOk inserted).2)
    else (true, inserted)

/-- `SymTable_replace` (hash): run the replace loop on the key's bucket
(the C code mutates the found binding in place; the pure embedding writes
the updated bucket back at the same index). -/
def SymTable_replace {V : Type} (st : SymTable V) (k : Key) (v : Option V) :
    Option V × SymTable V :=
  let index := SymTable_hash k st.uBucketCount
  let p := replaceB (bucketAt st index) k v
  (p.1, { st with ppBuckets := st.ppBuckets.set index p.2 })

/-- `SymTable_contains` (hash): search loop on the key's bucket. -/
def SymTable_contains {V : Type} (st : SymTable V) (k : Key) : Bool :=
  containsB (bucketAt st (SymTable_hash k st.uBucketCount)) k

/-- `SymTable_get` (hash): value-search loop on the key's bucket. -/
def SymTable_get {V : Type} (st : SymTable V) (k : Key) : Option V :=
  getB (bucketAt st (SymTable_hash k st.uBucketCount)) k

/-- `SymTable_remove` (hash): unlink loop on the key's bucket; on a hit the
spliced bucket is written back and the count decremented. -/
def SymTable_remove {V : Type} (st : SymTable V) (k : Key) :
    Option V × SymTable V :=
  let index := SymTable_hash k st.uBucketCount
  match removeB (bucketAt st index) k with
  | (none, _) => (none, st)
  | (some v, bkt) =>
      (v, { st with ppBuckets := st.ppBuckets.set index bkt,
                    uLength := st.uLength - 1 })

/-- `SymTable_map` (hash) visits bucket 0 first, each bucket in chain
order; the embedding returns the visit sequence handed to `pfApply`. -/
def SymTable_map {V : Type} (st : SymTable V) : Bindings V :=
  st.ppBuckets.flatten

/-- Specification-side observer for the hash table: the binding stored for
`k`, read from `k`'s bucket. -/
def find {V : Type} (st : SymTable V) (k : Key) : Option (Option V) :=
  findB (bucketAt st (SymTable_hash k st.uBucketCount)) k

end symtablehash

section BindingsLemmas

variable {V : Type}

theorem containsB_eq_isSome (l : Bindings V) (k : Key) :
    containsB l k = (findB l k).isSome := by
  induction l with
  | nil => simp [containsB, findB]
  | cons b rest ih =>
    by_cases h : b.1 = k <;> simp [containsB, findB, h, ih]

theorem getB_eq_join (l : Bindings V) (k : Key) :
    getB l k = (findB l k).join := by
  induction l with
  | nil => simp [getB, findB]
  | cons b rest ih =>
    by_cases h : b.1 = k <;> simp [getB, findB, h, ih]

theorem findB_eq_none_iff (l : Bindings V) (k : Key) :
    findB l k = none ↔ k ∉ l.map Prod.fst := by
  induction l with
  | nil => simp [findB]
  | cons b rest ih =>
    by_cases h : b.1 = k
    · subst h
      simp [findB]
    · have h2 : ¬ k = b.1 := fun he => h he.symm
      simp [findB, h, ih, h2]

theorem findB_mem (l : Bindings V) (k : Key) (v : Option V)
    (h : findB l k = some v) : (k, v) ∈ l := by
  induction l with
  | nil => simp [findB] at h
  | cons b rest ih =>
    by_cases hb : b.1 = k
    · simp only [findB, hb, if_true, Option.some.injEq] at h
      cases b with
      | mk k1 v1 =>
        cases hb
        cases h
        exact List.mem_cons_self _ _
    · simp only [findB, hb, if_false] at h
      exact List.mem_cons_of_mem _ (ih h)

theorem mem_findB (l : Bindings V) (k : Key) (v : Option V)
    (hnd : (l.map Prod.fst).Nodup) (h : (k, v) ∈ l) : findB l k = some v := by
  induction l with
  | nil => simp at h
  | cons b rest ih =>
    rcases List.mem_cons.mp h with h1 | h1
    · subst h1
      simp [findB]
    · have hb : b.1 ≠ k := by
        intro he
        have : k ∈ rest.map Prod.fst := List.mem_map.mpr ⟨(k, v), h1, rfl⟩
        rw [List.map_cons, List.nodup_cons] at hnd
        exact hnd.1 (he ▸ this)
      rw [List.map_cons, List.nodup_cons] at hnd
      simp [findB, hb]
      exact ih hnd.2 h1

theorem replaceB_fst (l : Bindings V) (k : Key) (v : Option V) :
    (replaceB l k v).1 = (findB l k).join := by
  induction l with
  | nil => simp [replaceB, findB]
  | cons b rest ih =>
    by_cases h : b.1 = k <;> simp [replaceB, findB, h, ih]

theorem replaceB_snd_find (l : Bindings V) (k : Key) (v : Option V) (k' : Key) :
    findB (replaceB l k v).2 k' =
      if k' = k then (findB l k).map (fun _ => v) else findB l k' := by
  induction l with
  | nil => by_cases h : k' = k <;> simp [replaceB, findB, h]
  | cons b rest ih =>
    by_cases h : b.1 = k
    · by_cases h' : k' = k
      · subst h'
        simp [replaceB, findB, h]
      · have h2 : ¬ k = k' := fun he => h' he.symm
        have hb : ¬ b.1 = k' := by rw [h]; exact h2
        simp [replaceB, findB, h, hb, h', h2]
    · by_cases hb : b.1 = k'
      · have h' : ¬ k' = k := fun he => h (hb.trans he)
        simp [replaceB, findB, h, hb, h']
      · simp [replaceB, findB, h, hb, ih]

theorem replaceB_snd_keys (l : Bindings V) (k : Key) (v : Option V) :
    (replaceB l k v).2.map Prod.fst = l.map Prod.fst := by
  induction l with
  | nil => simp [replaceB]
  | cons b rest ih =>
    by_cases h : b.1 = k <;> simp [replaceB, h, ih]

theorem replaceB_snd_length (l : Bindings V) (k : Key) (v : Option V) :
    (replaceB l k v).2.length = l.length := by
  induction l with
  | nil => simp [replaceB]
  | cons b rest ih =>
    by_cases h : b.1 = k <;> simp [replaceB, h, ih]

theorem replaceB_snd_of_absent (l : Bindings V) (k : Key) (v : Option V)
    (h : findB l k = none) : (replaceB l k v).2 = l := by
  induction l with
  | nil => simp [replaceB]
  | cons b rest ih =>
    by_cases hb : b.1 = k
    · simp [findB, hb] at h
    · simp [findB, hb] at h
      simp [replaceB, hb, ih h]

theorem removeB_fst (l : Bindings V) (k : Key) :
    (removeB l k).1 = findB l k := by
  induction l with
  | nil => simp [removeB, findB]
  | cons b rest ih =>
    by_cases h : b.1 = k <;> simp [removeB, findB, h, ih]

theorem removeB_snd_sublist (l : Bindings V) (k : Key) :
    (removeB l k).2.Sublist l := by
  induction l with
  | nil => simp [removeB]
  | cons b rest ih =>
    by_cases h : b.1 = k
    · simp [removeB, h]
    · simp only [removeB, h, if_false]
      exact List.Sublist.cons₂ b ih

theorem removeB_snd_of_absent (l : Bindings V) (k : Key)
    (h : findB l k = none) : (removeB l k).2 = l := by
  induction l with
  | nil => simp [removeB]
  | cons b rest ih =>
    by_cases hb : b.1 = k
    · simp [findB, hb] at h
    · simp [findB, hb] at h
      simp [removeB, hb, ih h]

theorem removeB_snd_find_ne (l : Bindings V) (k k' : Key) (hne : k' ≠ k) :
    findB (removeB l k).2 k' = findB l k' := by
  induction l with
  | nil => simp [removeB]
  | cons b rest ih =>
    by_cases h : b.1 = k
    · have hb : ¬ b.1 = k' := by rw [h]; exact fun he => hne he.symm
      have h2 : ¬ k = k' := fun he => hne he.symm
      simp [removeB, findB, h, hb, h2]
    · by_cases hb : b.1 = k' <;> simp [removeB, findB, h, hb, ih, hne]

theorem removeB_snd_find_self (l : Bindings V) (k : Key)
    (hnd : (l.map Prod.fst).Nodup) : findB (removeB l k).2 k = none := by
  induction l with
  | nil => simp [removeB, findB]
  | cons b rest ih =>
    rw [List.map_cons, List.nodup_cons] at hnd
    by_cases h : b.1 = k
    · simp only [removeB, h, if_true]
      rw [findB_eq_none_iff]
      exact h ▸ hnd.1
    · simp [removeB, findB, h, ih hnd.2]

theorem removeB_perm (l : Bindings V) (k : Key) (v : Option V)
    (h : findB l k = some v) : l.Perm ((k, v) :: (removeB l k).2) := by
  induction l with
  | nil => simp [findB] at h
  | cons b rest ih =>
    by_cases hb : b.1 = k
    · simp only [findB, hb, if_true, Option.some.injEq] at h
      have : b = (k, v) := by cases b; simp_all
      subst this
      simp [removeB]
    · simp only [findB, hb, if_false] at h
      simp only [removeB, hb, if_false]
      exact (List.Perm.cons b (ih h)).trans (List.Perm.swap _ _ _)

theorem removeB_snd_length (l : Bindings V) (k : Key) (v : Option V)
    (h : findB l k = some v) : (removeB l k).2.length + 1 = l.length := by
  have := (removeB_perm l k v h).length_eq
  simpa using this.symm

end BindingsLemmas

section ListUtil

variable {α : Type}

theorem getD_set_self (l : List α) (i : Nat) (x d : α) (h : i < l.length) :
    (l.set i x).getD i d = x := by
  induction l generalizing i with
  | nil => simp at h
  | cons a t ih =>
    cases i with
    | zero => simp [List.getD]
    | succ j =>
      simp only [List.set, List.getD]
      exact ih j (by simpa using h)

theorem getD_set_ne (l : List α) {i j : Nat} (x : α) (d : α) (h : i ≠ j) :
    (l.set i x).getD j d = l.getD j d := by
  induction l generalizing i j with
  | nil => simp
  | cons a t ih =>
    cases i with
    | zero =>
      cases j with
      | zero => exact absurd rfl h
      | succ j' => simp [List.getD]
    | succ i' =>
      cases j with
      | zero => simp [List.getD]
      | succ j' =>
        simp only [List.set, List.getD]
        exact ih (fun he => h (by rw [he]))

theorem set_getD_self (l : List α) (i : Nat) (d : α) :
    l.set i (l.getD i d) = l := by
  induction l generalizing i with
  | nil => simp
  | cons a t ih =>
    cases i with
    | zero => simp [List.getD]
    | succ j =>
      simp only [List.set, List.getD, List.cons.injEq, true_and]
      exact ih j

theorem getD_lt_eq_get (l : List α) (i : Nat) (d : α) (h : i < l.length) :
    l.getD i d = l.get ⟨i, h⟩ := by
  induction l generalizing i with
  | nil => simp at h
  | cons a t ih =>
    cases i with
    | zero => simp [List.getD]
    | succ j => simpa [List.getD] using ih j (by simpa using h)

theorem getD_mem_of_lt (l : List α) (i : Nat) (d : α) (h : i < l.length) :
    l.getD i d ∈ l := by
  rw [getD_lt_eq_get l i d h]
  exact l.get_mem i h

theorem sublist_flatten_of_mem {L : List (List α)} {l : List α}
    (h : l ∈ L) : l.Sublist L.flatten := by
  induction L with
  | nil => simp at h
  | cons a t ih =>
    rcases List.mem_cons.mp h with h1 | h1
    · subst h1
      exact (List.sublist_append_left l t.flatten).trans (by simp)
    · exact (ih h1).trans ((List.sublist_append_right a t.flatten).trans (by simp))

theorem flatten_set_perm (L : List (List α)) (i : Nat) (L' : List α)
    (h : i < L.length) :
    (L.set i L').flatten.Perm (L' ++ (L.set i []).flatten) := by
  induction L generalizing i with
  | nil => simp at h
  | cons a t ih =>
    cases i with
    | zero => simp
    | succ j =>
      have hj : j < t.length := by simpa using h
      simp only [List.set, List.flatten_cons]
      refine ((ih j hj).append_left a).trans ?_
      rw [← List.append_assoc, ← List.append_assoc]
      exact List.perm_append_comm.append_right _

theorem flatten_perm_getD (L : List (List α)) (i : Nat) (h : i < L.length) :
    L.flatten.Perm (L.getD i [] ++ (L.set i []).flatten) := by
  have := flatten_set_perm L i (L.getD i []) h
  rwa [set_getD_self] at this

theorem getD_replicate_nil {β : Type} (n i : Nat) :
    (List.replicate n ([] : List β)).getD i [] = [] := by
  induction n generalizing i with
  | zero => simp
  | succ m ih =>
    cases i with
    | zero => simp [List.replicate, List.getD]
    | succ j => simp [List.replicate, List.getD, ih j]

theorem flatten_replicate_nil {β : Type} (n : Nat) :
    (List.replicate n ([] : List β)).flatten = [] := by
  induction n with
  | zero => simp
  | succ m ih => simp [List.replicate, ih]

theorem foldl_flatten_eq {β : Type} (f : β → α → β) (L : List (List α))
    (init : β) :
    L.foldl (fun acc l => l.foldl f acc) init = L.flatten.foldl f init := by
  induction L generalizing init with
  | nil => simp
  | cons a t ih => simp [List.foldl_append, ih]

end ListUtil

namespace symtablehash

variable {V : Type}

/-- Every `primes` entry is positive. -/
theorem primes_pos : ∀ i, i < numPrimes → 0 < primes.getD i 0 := by decide

/-- The hash index is in range whenever the bucket count is positive. -/
theorem hash_lt (k : Key) {n : Nat} (h : 0 < n) : SymTable_hash k n < n :=
  Nat.mod_lt _ h

/-- Well-formedness of a hash-table state: the bucket array has exactly
`uBucketCount` buckets, the bucket count is the `primes` entry at the
current index, every binding sits in the bucket its key hashes to, keys are
globally unique, and `uLength` counts the bindings. -/
structure WF (st : SymTable V) : Prop where
  buckets_len : st.ppBuckets.length = st.uBucketCount
  prime_lt : st.uPrimeIndex < numPrimes
  count_eq : st.uBucketCount = primes.getD st.uPrimeIndex 0
  placed : ∀ i, i < st.ppBuckets.length →
    ∀ b ∈ st.ppBuckets.getD i [], SymTable_hash b.1 st.uBucketCount = i
  keys_nodup : (st.ppBuckets.flatten.map Prod.fst).Nodup
  len_eq : st.uLength = st.ppBuckets.flatten.length

theorem WF.count_pos {st : SymTable V} (hw : WF st) : 0 < st.uBucketCount :=
  hw.count_eq ▸ primes_pos _ hw.prime_lt

theorem WF.idx_lt {st : SymTable V} (hw : WF st) (k : Key) :
    SymTable_hash k st.uBucketCount < st.ppBuckets.length := by
  rw [hw.buckets_len]
  exact hash_lt k hw.count_pos

theorem WF.bucket_nodup {st : SymTable V} (hw : WF st) (i : Nat)
    (h : i < st.ppBuckets.length) :
    ((st.ppBuckets.getD i []).map Prod.fst).Nodup := by
  have hm : st.ppBuckets.getD i [] ∈ st.ppBuckets := getD_mem_of_lt _ _ _ h
  exact hw.keys_nodup.sublist ((sublist_flatten_of_mem hm).map Prod.fst)

theorem WF.new : WF (SymTable_new V) := by
  refine ⟨?_, ?_, ?_, ?_, ?_, ?_⟩
  · simp [SymTable_new]
  · show (0 : Nat) < numPrimes
    decide
  · rfl
  · intro i hi b hb
    simp only [SymTable_new] at hb
    rw [getD_replicate_nil] at hb
    simp at hb
  · simp only [SymTable_new]
    rw [flatten_replicate_nil]
    simp
  · simp only [SymTable_new]
    rw [flatten_replicate_nil]
    rfl

theorem find_iff_mem {st : SymTable V} (hw : WF st) (k : Key) (v : Option V) :
    find st k = some v ↔ (k, v) ∈ st.ppBuckets.flatten := by
  constructor
  · intro h
    have hb : (k, v) ∈ bucketAt st (SymTable_hash k st.uBucketCount) :=
      findB_mem _ _ _ h
    have hmem : bucketAt st (SymTable_hash k st.uBucketCount) ∈ st.ppBuckets :=
      getD_mem_of_lt _ _ _ (hw.idx_lt k)
    exact (sublist_flatten_of_mem hmem).mem hb
  · intro h
    rcases List.mem_flatten.mp h with ⟨l, hl, hbl⟩
    rcases List.mem_iff_get.mp hl with ⟨⟨j, hj⟩, hget⟩
    have hD : st.ppBuckets.getD j [] = l := by
      rw [getD_lt_eq_get _ _ _ hj, hget]
    have hidx : SymTable_hash k st.uBucketCount = j :=
      hw.placed j hj (k, v) (hD ▸ hbl)
    have : (k, v) ∈ bucketAt st (SymTable_hash k st.uBucketCount) := by
      rw [bucketAt, hidx, hD]
      exact hbl
    exact mem_findB _ _ _ (hw.bucket_nodup _ (hw.idx_lt k)) this

theorem find_eq_findB_flatten {st : SymTable V} (hw : WF st) (k : Key) :
    find st k = findB st.ppBuckets.flatten k := by
  cases h : findB st.ppBuckets.flatten k with
  | some v => exact (find_iff_mem hw k v).mpr (findB_mem _ _ _ h)
  | none =>
    rw [findB_eq_none_iff] at h
    cases hf : find st k with
    | none => rfl
    | some w =>
      exact absurd (List.mem_map.mpr ⟨(k, w), (find_iff_mem hw k w).mp hf, rfl⟩) h

theorem find_eq_none_iff_glob {st : SymTable V} (hw : WF st) (k : Key) :
    find st k = none ↔ k ∉ st.ppBuckets.flatten.map Prod.fst := by
  rw [find_eq_findB_flatten hw, findB_eq_none_iff]

theorem rehash_foldl_length (n : Nat) (bs : Bindings V)
    (acc : List (Bindings V)) (ha : acc.length = n) :
    (bs.foldl (rehashInsert n) acc).length = n := by
  induction bs generalizing acc with
  | nil => simpa using ha
  | cons b rest ih =>
    simp only [List.foldl_cons]
    exact ih _ (by simpa [rehashInsert] using ha)

theorem rehash_foldl_placed (n : Nat) (hn : 0 < n) (bs : Bindings V)
    (acc : List (Bindings V)) (ha : acc.length = n)
    (hp : ∀ i, i < n → ∀ b ∈ acc.getD i [], SymTable_hash b.1 n = i) :
    ∀ i, i < n → ∀ b ∈ (bs.foldl (rehashInsert n) acc).getD i [],
      SymTable_hash b.1 n = i := by
  induction bs generalizing acc with
  | nil => simpa using hp
  | cons b rest ih =>
    simp only [List.foldl_cons]
    refine ih _ (by simpa [rehashInsert] using ha) ?_
    intro i hi c hc
    by_cases hix : SymTable_hash b.1 n = i
    · rw [rehashInsert, ← hix] at hc
      rw [getD_set_self _ _ _ _ (by rw [ha]; exact hash_lt b.1 hn)] at hc
      rcases List.mem_cons.mp hc with h1 | h1
      · rw [h1, hix]
      · rw [hix] at h1
        exact hp i hi c h1
    · rw [rehashInsert, getD_set_ne _ _ _ hix] at hc
      exact hp i hi c hc

theorem rehash_foldl_flatten_perm (n : Nat) (hn : 0 < n) (bs : Bindings V)
    (acc : List (Bindings V)) (ha : acc.length = n) :
    (bs.foldl (rehashInsert n) acc).flatten.Perm (bs ++ acc.flatten) := by
  induction bs generalizing acc with
  | nil => simp
  | cons b rest ih =>
    simp only [List.foldl_cons]
    have hidx : SymTable_hash b.1 n < acc.length := by
      rw [ha]; exact hash_lt b.1 hn
    have p1 : (rehashInsert n acc b).flatten.Perm (b :: acc.flatten) := by
      refine (flatten_set_perm acc _ _ hidx).trans ?_
      exact ((flatten_perm_getD acc _ hidx).symm.cons b)
    refine (ih _ (by simpa [rehashInsert] using ha)).trans ?_
    exact (p1.append_left rest).trans List.perm_middle

theorem expandTable_at_cap (st : SymTable V) (ok : Bool)
    (h : st.uPrimeIndex + 1 ≥ numPrimes) : expandTable ok st = (true, st) := by
  simp [expandTable, h]

theorem expandTable_alloc_fail (st : SymTable V)
    (h : ¬ st.uPrimeIndex + 1 ≥ numPrimes) :
    expandTable false st = (false, st) := by
  simp [expandTable, h]

theorem expand_preserve {st : SymTable V} (hw : WF st) (ok : Bool) :
    WF (expandTable ok st).2 ∧
    (expandTable ok st).2.uLength = st.uLength ∧
    (∀ k, find (expandTable ok st).2 k = find st k) ∧
    (expandTable ok st).2.ppBuckets.flatten.Perm st.ppBuckets.flatten := by
  by_cases hcap : st.uPrimeIndex + 1 ≥ numPrimes
  · rw [expandTable_at_cap st ok hcap]
    exact ⟨hw, rfl, fun _ => rfl, List.Perm.refl _⟩
  · cases ok with
    | false =>
      rw [expandTable_alloc_fail st hcap]
      exact ⟨hw, rfl, fun _ => rfl, List.Perm.refl _⟩
    | true =>
      have hlt : st.uPrimeIndex + 1 < numPrimes := lt_of_not_ge hcap
      have hn : 0 < primes.getD (st.uPrimeIndex + 1) 0 := primes_pos _ hlt
      set n := primes.getD (st.uPrimeIndex + 1) 0 with hn_def
      have hred : (expandTable true st).2 =
          { ppBuckets := st.ppBuckets.flatten.foldl (rehashInsert n)
              (List.replicate n []),
            uBucketCount := n,
            uLength := st.uLength,
            uPrimeIndex := st.uPrimeIndex + 1 } := by
        simp only [expandTable, hcap, if_false, if_true]
        rw [foldl_flatten_eq]
      have hlen : ((expandTable true st).2).ppBuckets.length = n := by
        rw [hred]
        exact rehash_foldl_length n _ _ (by simp)
      have hperm : ((expandTable true st).2).ppBuckets.flatten.Perm
          st.ppBuckets.flatten := by
        rw [hred]
        refine (rehash_foldl_flatten_perm n hn _ _ (by simp)).trans ?_
        rw [flatten_replicate_nil, List.append_nil]
      have hw2 : WF (expandTable true st).2 := by
        refine ⟨?_, ?_, ?_, ?_, ?_, ?_⟩
        · rw [hlen, hred]
        · rw [hred]; exact hlt
        · rw [hred]
        · rw [hred]
          simp only
          intro i hi b hb
          refine rehash_foldl_placed n hn _ _ (by simp) ?_ i ?_ b hb
          · intro j hj c hc
            rw [getD_replicate_nil] at hc
            simp at hc
          · rw [rehash_foldl_length n _ _ (by simp)] at hi
            exact hi
        · exact ((hperm.map Prod.fst).nodup_iff).mpr hw.keys_nodup
        · have h1 : (expandTable true st).2.uLength = st.uLength := by rw [hred]
          rw [h1, hperm.length_eq]
          exact hw.len_eq
      refine ⟨hw2, by rw [hred], ?_, hperm⟩
      intro k
      cases hf : find st k with
      | some v =>
        exact (find_iff_mem hw2 k v).mpr
          (hperm.mem_iff.mpr ((find_iff_mem hw k v).mp hf))
      | none =>
        rw [find_eq_none_iff_glob hw2]
        rw [find_eq_none_iff_glob hw] at hf
        exact fun hk => hf ((hperm.map Prod.fst).mem_iff.mp hk)

end symtablehash

namespace symtablehash

variable {V : Type}

theorem find_def (st : SymTable V) (k : Key) :
    find st k =
      findB (st.ppBuckets.getD (SymTable_hash k st.uBucketCount) []) k := rfl

theorem contains_eq_find (st : SymTable V) (k : Key) :
    SymTable_contains st k = (find st k).isSome :=
  containsB_eq_isSome _ _

theorem get_eq_find (st : SymTable V) (k : Key) :
    SymTable_get st k = (find st k).join :=
  getB_eq_join _ _

theorem replace_fst_eq (st : SymTable V) (k : Key) (v : Option V) :
    (SymTable_replace st k v).1 = (find st k).join :=
  replaceB_fst _ _ _

theorem remove_fst_eq (st : SymTable V) (k : Key) :
    (SymTable_remove st k).1 = (find st k).join := by
  have h1 : (removeB (bucketAt st (SymTable_hash k st.uBucketCount)) k).1
      = find st k := removeB_fst _ _
  simp only [SymTable_remove]
  rcases hr : removeB (bucketAt st (SymTable_hash k st.uBucketCount)) k
    with ⟨r, bkt⟩
  rw [hr] at h1
  simp only at h1
  cases r with
  | none => rw [← h1]; rfl
  | some v => rw [← h1]; rfl

theorem replace_absent (st : SymTable V) (k : Key) (v : Option V)
    (h : find st k = none) : SymTable_replace st k v = (none, st) := by
  have h2 : (replaceB (st.ppBuckets.getD (SymTable_hash k st.uBucketCount) [])
      k v).1 = none := by
    have h0 : (replaceB (bucketAt st (SymTable_hash k st.uBucketCount)) k v).1
        = (find st k).join := replaceB_fst _ _ _
    rw [h] at h0
    exact h0
  have h3 : (replaceB (st.ppBuckets.getD (SymTable_hash k st.uBucketCount) [])
      k v).2 = st.ppBuckets.getD (SymTable_hash k st.uBucketCount) [] :=
    replaceB_snd_of_absent _ _ _ h
  simp only [SymTable_replace, bucketAt, h2, h3]
  rw [set_getD_self]

theorem remove_absent (st : SymTable V) (k : Key)
    (h : find st k = none) : SymTable_remove st k = (none, st) := by
  simp only [SymTable_remove]
  rcases hr : removeB (bucketAt st (SymTable_hash k st.uBucketCount)) k
    with ⟨r, bkt⟩
  have h1 : r = none := by
    have h2 := removeB_fst (bucketAt st (SymTable_hash k st.uBucketCount)) k
    rw [hr] at h2
    simp only at h2
    rw [h2]
    exact h
  subst h1
  rfl

theorem replace_find (st : SymTable V) (k : Key) (v : Option V)
    (hlen : st.ppBuckets.length = st.uBucketCount)
    (hpos : 0 < st.uBucketCount) (k' : Key) :
    find (SymTable_replace st k v).2 k' =
      if k' = k then (find st k).map (fun _ => v) else find st k' := by
  have hidx : SymTable_hash k st.uBucketCount < st.ppBuckets.length := by
    rw [hlen]; exact hash_lt k hpos
  simp only [find_def, SymTable_replace, bucketAt]
  by_cases hb : SymTable_hash k' st.uBucketCount = SymTable_hash k st.uBucketCount
  · rw [hb, getD_set_self _ _ _ _ hidx]
    exact replaceB_snd_find _ _ _ _
  · have hk : ¬ k' = k := fun he => hb (by rw [he])
    rw [getD_set_ne _ _ _ (fun he => hb he.symm), if_neg hk]

theorem replace_counts (st : SymTable V) (k : Key) (v : Option V) :
    (SymTable_replace st k v).2.uBucketCount = st.uBucketCount ∧
    (SymTable_replace st k v).2.uLength = st.uLength ∧
    (SymTable_replace st k v).2.uPrimeIndex = st.uPrimeIndex := by
  refine ⟨rfl, rfl, rfl⟩

theorem replace_WF {st : SymTable V} (hw : WF st) (k : Key) (v : Option V) :
    WF (SymTable_replace st k v).2 := by
  have hidx := hw.idx_lt k
  have hkeys : ((replaceB (bucketAt st (SymTable_hash k st.uBucketCount)) k v).2).map
      Prod.fst = (bucketAt st (SymTable_hash k st.uBucketCount)).map Prod.fst :=
    replaceB_snd_keys _ _ _
  have hflat : (SymTable_replace st k v).2.ppBuckets.flatten.Perm
      ((replaceB (bucketAt st (SymTable_hash k st.uBucketCount)) k v).2 ++
        (st.ppBuckets.set (SymTable_hash k st.uBucketCount) []).flatten) :=
    flatten_set_perm _ _ _ hidx
  have hflat0 : st.ppBuckets.flatten.Perm
      (bucketAt st (SymTable_hash k st.uBucketCount) ++
        (st.ppBuckets.set (SymTable_hash k st.uBucketCount) []).flatten) :=
    flatten_perm_getD _ _ hidx
  refine ⟨?_, hw.prime_lt, hw.count_eq, ?_, ?_, ?_⟩
  · simp only [SymTable_replace]
    rw [List.length_set]
    exact hw.buckets_len
  · intro i hi b hb
    simp only [SymTable_replace] at hi hb ⊢
    rw [List.length_set] at hi
    by_cases hix : SymTable_hash k st.uBucketCount = i
    · rw [← hix, getD_set_self _ _ _ _ hidx] at hb
      have hbk : b.1 ∈ (bucketAt st (SymTable_hash k st.uBucketCount)).map
          Prod.fst := by
        rw [← hkeys]
        exact List.mem_map.mpr ⟨b, hb, rfl⟩
      rcases List.mem_map.mp hbk with ⟨c, hc, hc1⟩
      rw [← hix, ← hc1]
      exact hw.placed _ (by rw [← hix] at hi; exact hi) c hc
    · rw [getD_set_ne _ _ _ hix] at hb
      exact hw.placed i hi b hb
  · have : ((SymTable_replace st k v).2.ppBuckets.flatten.map Prod.fst).Perm
        (st.ppBuckets.flatten.map Prod.fst) := by
      refine (hflat.map Prod.fst).trans ?_
      rw [List.map_append, hkeys, ← List.map_append]
      exact (hflat0.map Prod.fst).symm
    exact this.nodup_iff.mpr hw.keys_nodup
  · have h1 : (SymTable_replace st k v).2.ppBuckets.flatten.length =
        st.ppBuckets.flatten.length := by
      rw [hflat.length_eq, hflat0.length_eq]
      simp [replaceB_snd_length]
    rw [h1]
    exact hw.len_eq

end symtablehash

namespace symtablehash

variable {V : Type}

theorem remove_found {st : SymTable V} (hw : WF st) {k : Key} {v : Option V}
    (h : find st k = some v) :
    (SymTable_remove st k).1 = v ∧
    WF (SymTable_remove st k).2 ∧
    (SymTable_remove st k).2.uLength + 1 = st.uLength ∧
    (SymTable_remove st k).2.uBucketCount = st.uBucketCount ∧
    (SymTable_remove st k).2.uPrimeIndex = st.uPrimeIndex ∧
    find (SymTable_remove st k).2 k = none ∧
    (∀ k', k' ≠ k → find (SymTable_remove st k).2 k' = find st k') ∧
    st.ppBuckets.flatten.Perm
      ((k, v) :: (SymTable_remove st k).2.ppBuckets.flatten) := by
  have hfb : findB (bucketAt st (SymTable_hash k st.uBucketCount)) k = some v := h
  have hfst : (removeB (bucketAt st (SymTable_hash k st.uBucketCount)) k).1
      = some v := by rw [removeB_fst]; exact hfb
  have hre : SymTable_remove st k =
      (v, { st with
              ppBuckets := st.ppBuckets.set (SymTable_hash k st.uBucketCount)
                (removeB (bucketAt st (SymTable_hash k st.uBucketCount)) k).2,
              uLength := st.uLength - 1 }) := by
    simp only [SymTable_remove]
    rcases hr : removeB (bucketAt st (SymTable_hash k st.uBucketCount)) k
      with ⟨r, bkt⟩
    rw [hr] at hfst
    simp only at hfst
    subst hfst
    rfl
  have hidx := hw.idx_lt k
  have p0 := flatten_perm_getD st.ppBuckets _ hidx
  have p1 : (bucketAt st (SymTable_hash k st.uBucketCount)).Perm
      ((k, v) :: (removeB (bucketAt st (SymTable_hash k st.uBucketCount)) k).2) :=
    removeB_perm _ _ _ hfb
  have p2 := flatten_set_perm st.ppBuckets (SymTable_hash k st.uBucketCount)
      ((removeB (bucketAt st (SymTable_hash k st.uBucketCount)) k).2) hidx
  have hperm : st.ppBuckets.flatten.Perm
      ((k, v) :: (st.ppBuckets.set (SymTable_hash k st.uBucketCount)
        ((removeB (bucketAt st (SymTable_hash k st.uBucketCount)) k).2)).flatten) :=
    p0.trans ((p1.append_right _).trans ((p2.symm).cons (k, v)))
  have hkperm : (st.ppBuckets.flatten.map Prod.fst).Perm
      (k :: ((st.ppBuckets.set (SymTable_hash k st.uBucketCount)
        ((removeB (bucketAt st (SymTable_hash k st.uBucketCount)) k).2)).flatten.map
          Prod.fst)) := hperm.map Prod.fst
  have hnodup2 := (hkperm.nodup_iff.mp hw.keys_nodup).of_cons
  have hlen2 : st.ppBuckets.flatten.length =
      ((st.ppBuckets.set (SymTable_hash k st.uBucketCount)
        ((removeB (bucketAt st (SymTable_hash k st.uBucketCount)) k).2)).flatten).length
        + 1 := by
    have := hperm.length_eq
    simpa using this
  have hul : 0 < st.uLength := by
    rw [hw.len_eq, hlen2]
    exact Nat.succ_pos _
  rw [hre]
  refine ⟨rfl, ?_, ?_, rfl, rfl, ?_, ?_, ?_⟩
  · refine ⟨?_, hw.prime_lt, hw.count_eq, ?_, ?_, ?_⟩
    · simp only [List.length_set]
      exact hw.buckets_len
    · intro i hi b hb
      simp only [List.length_set] at hi
      by_cases hix : SymTable_hash k st.uBucketCount = i
      · rw [← hix, getD_set_self _ _ _ _ hidx] at hb
        have hbk : b ∈ bucketAt st (SymTable_hash k st.uBucketCount) :=
          (removeB_snd_sublist _ _).subset hb
        rw [← hix]
        exact hw.placed _ (by rw [← hix] at hi; exact hi) b hbk
      · rw [getD_set_ne _ _ _ hix] at hb
        exact hw.placed i hi b hb
    · exact hnodup2
    · have hle := hw.len_eq
      simp only
      omega
  · have hle := hw.len_eq
    simp only
    omega
  · rw [find_def]
    simp only
    rw [getD_set_self _ _ _ _ hidx]
    exact removeB_snd_find_self _ _ (hw.bucket_nodup _ hidx)
  · intro k' hk'
    rw [find_def, find_def]
    simp only
    by_cases hb : SymTable_hash k' st.uBucketCount = SymTable_hash k st.uBucketCount
    · rw [hb, getD_set_self _ _ _ _ hidx]
      exact removeB_snd_find_ne _ _ _ hk'
    · rw [getD_set_ne _ _ _ (fun he => hb he.symm)]
  · exact hperm

end symtablehash

namespace symtablehash

variable {V : Type}

theorem insert_facts {st : SymTable V} (hw : WF st) {k : Key}
    (hfresh : find st k = none) (v : Option V) :
    WF { st with
      ppBuckets := st.ppBuckets.set (SymTable_hash k st.uBucketCount)
        ((k, v) :: st.ppBuckets.getD (SymTable_hash k st.uBucketCount) []),
      uLength := st.uLength + 1 } ∧
    find { st with
      ppBuckets := st.ppBuckets.set (SymTable_hash k st.uBucketCount)
        ((k, v) :: st.ppBuckets.getD (SymTable_hash k st.uBucketCount) []),
      uLength := st.uLength + 1 } k = some v ∧
    (∀ k', k' ≠ k → find { st with
      ppBuckets := st.ppBuckets.set (SymTable_hash k st.uBucketCount)
        ((k, v) :: st.ppBuckets.getD (SymTable_hash k st.uBucketCount) []),
      uLength := st.uLength + 1 } k' = find st k') ∧
    ({ st with
      ppBuckets := st.ppBuckets.set (SymTable_hash k st.uBucketCount)
        ((k, v) :: st.ppBuckets.getD (SymTable_hash k st.uBucketCount) []),
      uLength := st.uLength + 1 } : SymTable V).ppBuckets.flatten.Perm
        ((k, v) :: st.ppBuckets.flatten) := by
  have hidx := hw.idx_lt k
  have hperm : (st.ppBuckets.set (SymTable_hash k st.uBucketCount)
      ((k, v) :: st.ppBuckets.getD (SymTable_hash k st.uBucketCount) [])).flatten.Perm
      ((k, v) :: st.ppBuckets.flatten) :=
    (flatten_set_perm _ _ _ hidx).trans
      ((flatten_perm_getD st.ppBuckets _ hidx).symm.cons (k, v))
  have hnmem : k ∉ st.ppBuckets.flatten.map Prod.fst :=
    (find_eq_none_iff_glob hw k).mp hfresh
  refine ⟨⟨?_, hw.prime_lt, hw.count_eq, ?_, ?_, ?_⟩, ?_, ?_, hperm⟩
  · simp only [List.length_set]
    exact hw.buckets_len
  · intro i hi b hb
    simp only [List.length_set] at hi
    by_cases hix : SymTable_hash k st.uBucketCount = i
    · rw [← hix, getD_set_self _ _ _ _ hidx] at hb
      rcases List.mem_cons.mp hb with h1 | h1
      · rw [h1, ← hix]
      · rw [← hix]
        exact hw.placed _ (by rw [← hix] at hi; exact hi) b h1
    · rw [getD_set_ne _ _ _ hix] at hb
      exact hw.placed i hi b hb
  · exact ((hperm.map Prod.fst).nodup_iff).mpr
      (List.nodup_cons.mpr ⟨hnmem, hw.keys_nodup⟩)
  · have h1 := hperm.length_eq
    have h2 := hw.len_eq
    simp only
    simp only [List.length_cons] at h1
    omega
  · rw [find_def]
    simp only
    rw [getD_set_self _ _ _ _ hidx]
    simp [findB]
  · intro k' hk'
    rw [find_def, find_def]
    simp only
    by_cases hb : SymTable_hash k' st.uBucketCount = SymTable_hash k st.uBucketCount
    · rw [hb, getD_set_self _ _ _ _ hidx]
      have : ¬ k = k' := fun he => hk' he.symm
      simp [findB, this]
    · rw [getD_set_ne _ _ _ (fun he => hb he.symm)]

theorem put_dup {st : SymTable V} {k : Key} (h : find st k ≠ none) (ok : Bool)
    (v : Option V) : SymTable_put ok st k v = (false, st) := by
  have hc : containsB (st.ppBuckets.getD (SymTable_hash k st.uBucketCount) []) k
      = true := by
    rw [containsB_eq_isSome]
    exact Option.isSome_iff_ne_none.mpr h
  simp only [SymTable_put, bucketAt]
  rw [hc]
  simp

theorem put_fresh {st : SymTable V} (hw : WF st) {k : Key}
    (hfresh : find st k = none) (ok : Bool) (v : Option V) :
    (SymTable_put ok st k v).1 = true ∧
    WF (SymTable_put ok st k v).2 ∧
    (SymTable_put ok st k v).2.uLength = st.uLength + 1 ∧
    find (SymTable_put ok st k v).2 k = some v ∧
    (∀ k', k' ≠ k → find (SymTable_put ok st k v).2 k' = find st k') ∧
    (SymTable_put ok st k v).2.ppBuckets.flatten.Perm
      ((k, v) :: st.ppBuckets.flatten) := by
  have hc : containsB (st.ppBuckets.getD (SymTable_hash k st.uBucketCount) []) k
      = false := by
    rw [containsB_eq_isSome]
    have h0 : findB (st.ppBuckets.getD (SymTable_hash k st.uBucketCount) []) k
        = none := hfresh
    rw [h0]
    rfl
  obtain ⟨hwI, hfI, hneI, hpermI⟩ := insert_facts hw hfresh v
  by_cases htrig : st.uLength + 1 > st.uBucketCount
  · have hre : SymTable_put ok st k v = (true,
        (expandTable ok { st with
          ppBuckets := st.ppBuckets.set (SymTable_hash k st.uBucketCount)
            ((k, v) :: st.ppBuckets.getD (SymTable_hash k st.uBucketCount) []),
          uLength := st.uLength + 1 }).2) := by
      simp only [SymTable_put, bucketAt]
      rw [hc]
      simp [htrig]
    obtain ⟨hwE, hlenE, hfindE, hpermE⟩ := expand_preserve hwI ok
    rw [hre]
    refine ⟨rfl, hwE, ?_, ?_, ?_, hpermE.trans hpermI⟩
    · rw [hlenE]
    · rw [hfindE k]
      exact hfI
    · intro k' hk'
      rw [hfindE k']
      exact hneI k' hk'
  · have hre : SymTable_put ok st k v = (true, { st with
        ppBuckets := st.ppBuckets.set (SymTable_hash k st.uBucketCount)
          ((k, v) :: st.ppBuckets.getD (SymTable_hash k st.uBucketCount) []),
        uLength := st.uLength + 1 }) := by
      simp only [SymTable_put, bucketAt]
      rw [hc]
      simp [htrig]
    rw [hre]
    exact ⟨rfl, hwI, rfl, hfI, hneI, hpermI⟩

end symtablehash

namespace symtablelist

variable {V : Type}

/-- Well-formedness of a list-table state: keys unique, `uLength` counts
the bindings. -/
structure WF (st : SymTable V) : Prop where
  keys_nodup : (st.pHead.map Prod.fst).Nodup
  len_eq : st.uLength = st.pHead.length

theorem WF.newL : WF (SymTable_new V) :=
  ⟨by simp [SymTable_new], rfl⟩

theorem contains_eq_findL (st : SymTable V) (k : Key) :
    SymTable_contains st k = (find st k).isSome :=
  containsB_eq_isSome _ _

theorem get_eq_findL (st : SymTable V) (k : Key) :
    SymTable_get st k = (find st k).join :=
  getB_eq_join _ _

theorem replace_fst_eqL (st : SymTable V) (k : Key) (v : Option V) :
    (SymTable_replace st k v).1 = (find st k).join :=
  replaceB_fst _ _ _

theorem remove_fst_eqL (st : SymTable V) (k : Key) :
    (SymTable_remove st k).1 = (find st k).join := by
  have h1 : (removeB st.pHead k).1 = find st k := removeB_fst _ _
  simp only [SymTable_remove]
  rcases hr : removeB st.pHead k with ⟨r, bkt⟩
  rw [hr] at h1
  simp only at h1
  cases r with
  | none => rw [← h1]; rfl
  | some v => rw [← h1]; rfl

theorem replace_absentL (st : SymTable V) (k : Key) (v : Option V)
    (h : find st k = none) : SymTable_replace st k v = (none, st) := by
  have h2 : (replaceB st.pHead k v).1 = none := by
    have h0 : (replaceB st.pHead k v).1 = (find st k).join := replaceB_fst _ _ _
    rw [h] at h0
    exact h0
  have h3 : (replaceB st.pHead k v).2 = st.pHead :=
    replaceB_snd_of_absent _ _ _ h
  simp only [SymTable_replace, h2, h3]

theorem remove_absentL (st : SymTable V) (k : Key)
    (h : find st k = none) : SymTable_remove st k = (none, st) := by
  simp only [SymTable_remove]
  rcases hr : removeB st.pHead k with ⟨r, bkt⟩
  have h1 : r = none := by
    have h2 := removeB_fst st.pHead k
    rw [hr] at h2
    simp only at h2
    rw [h2]
    exact h
  subst h1
  rfl

theorem replace_findL (st : SymTable V) (k : Key) (v : Option V) (k' : Key) :
    find (SymTable_replace st k v).2 k' =
      if k' = k then (find st k).map (fun _ => v) else find st k' :=
  replaceB_snd_find _ _ _ _

theorem replace_WFL {st : SymTable V} (hw : WF st) (k : Key) (v : Option V) :
    WF (SymTable_replace st k v).2 := by
  refine ⟨?_, ?_⟩
  · simp only [SymTable_replace]
    rw [replaceB_snd_keys]
    exact hw.keys_nodup
  · simp only [SymTable_replace]
    rw [replaceB_snd_length]
    exact hw.len_eq

theorem put_dupL {st : SymTable V} {k : Key} (h : find st k ≠ none)
    (v : Option V) : SymTable_put st k v = (false, st) := by
  have hc : containsB st.pHead k = true := by
    rw [containsB_eq_isSome]
    exact Option.isSome_iff_ne_none.mpr h
  simp only [SymTable_put]
  rw [hc]
  simp

theorem put_freshL {st : SymTable V} (hw : WF st) {k : Key}
    (hfresh : find st k = none) (v : Option V) :
    (SymTable_put st k v).1 = true ∧
    WF (SymTable_put st k v).2 ∧
    (SymTable_put st k v).2.uLength = st.uLength + 1 ∧
    find (SymTable_put st k v).2 k = some v ∧
    (∀ k', k' ≠ k → find (SymTable_put st k v).2 k' = find st k') ∧
    (SymTable_put st k v).2.pHead = (k, v) :: st.pHead := by
  have hc : containsB st.pHead k = false := by
    rw [containsB_eq_isSome]
    have h0 : findB st.pHead k = none := hfresh
    rw [h0]
    rfl
  have hre : SymTable_put st k v =
      (true, { pHead := (k, v) :: st.pHead, uLength := st.uLength + 1 }) := by
    simp only [SymTable_put]
    rw [hc]
    simp
  rw [hre]
  have hnmem : k ∉ st.pHead.map Prod.fst := (findB_eq_none_iff _ _).mp hfresh
  refine ⟨rfl, ⟨?_, ?_⟩, rfl, ?_, ?_, rfl⟩
  · exact List.nodup_cons.mpr ⟨hnmem, hw.keys_nodup⟩
  · simp [hw.len_eq]
  · simp [find, findB]
  · intro k' hk'
    have : ¬ k = k' := fun he => hk' he.symm
    simp [find, findB, this]

theorem remove_foundL {st : SymTable V} (hw : WF st) {k : Key} {v : Option V}
    (h : find st k = some v) :
    (SymTable_remove st k).1 = v ∧
    WF (SymTable_remove st k).2 ∧
    (SymTable_remove st k).2.uLength + 1 = st.uLength ∧
    find (SymTable_remove st k).2 k = none ∧
    (∀ k', k' ≠ k → find (SymTable_remove st k).2 k' = find st k') ∧
    st.pHead.Perm ((k, v) :: (SymTable_remove st k).2.pHead) := by
  have hfb : findB st.pHead k = some v := h
  have hfst : (removeB st.pHead k).1 = some v := by
    rw [removeB_fst]
    exact hfb
  have hre : SymTable_remove st k =
      (v, { pHead := (removeB st.pHead k).2, uLength := st.uLength - 1 }) := by
    simp only [SymTable_remove]
    rcases hr : removeB st.pHead k with ⟨r, bkt⟩
    rw [hr] at hfst
    simp only at hfst
    subst hfst
    rfl
  have hperm : st.pHead.Perm ((k, v) :: (removeB st.pHead k).2) :=
    removeB_perm _ _ _ hfb
  have hlen : (removeB st.pHead k).2.length + 1 = st.pHead.length :=
    removeB_snd_length _ _ _ hfb
  have hle := hw.len_eq
  rw [hre]
  refine ⟨rfl, ⟨?_, ?_⟩, ?_, ?_, ?_, hperm⟩
  · exact ((removeB_snd_sublist st.pHead k).map Prod.fst).nodup hw.keys_nodup
  · simp only
    omega
  · simp only
    omega
  · exact removeB_snd_find_self _ _ hw.keys_nodup
  · intro k' hk'
    exact removeB_snd_find_ne _ _ _ hk'

end symtablelist

section AssocExt

variable {V : Type}

/-- Two duplicate-free binding lists with the same lookup function hold the
same bindings (up to order). -/
theorem findB_ext_perm (l1 l2 : Bindings V)
    (h1 : (l1.map Prod.fst).Nodup) (h2 : (l2.map Prod.fst).Nodup)
    (h : ∀ k, findB l1 k = findB l2 k) : l1.Perm l2 := by
  induction l1 generalizing l2 with
  | nil =>
    cases l2 with
    | nil => exact List.Perm.refl _
    | cons b t =>
      have hb := h b.1
      simp [findB] at hb
  | cons b t1 ih =>
    have hb : findB l2 b.1 = some b.2 := by
      rw [← h b.1]
      simp [findB]
    have hperm2 : l2.Perm ((b.1, b.2) :: (removeB l2 b.1).2) :=
      removeB_perm _ _ _ hb
    rw [List.map_cons, List.nodup_cons] at h1
    have ht2nd : ((removeB l2 b.1).2.map Prod.fst).Nodup :=
      ((removeB_snd_sublist l2 b.1).map Prod.fst).nodup h2
    have hagree : ∀ k, findB t1 k = findB (removeB l2 b.1).2 k := by
      intro k
      by_cases hk : k = b.1
      · subst hk
        rw [(findB_eq_none_iff t1 b.1).mpr h1.1,
          removeB_snd_find_self l2 b.1 h2]
      · have hc := h k
        have hbk : ¬ b.1 = k := fun he => hk he.symm
        rw [findB, if_neg hbk] at hc
        exact hc.trans (removeB_snd_find_ne l2 b.1 k hk).symm
    exact ((ih _ h1.2 ht2nd hagree).cons b).trans hperm2.symm

end AssocExt

/-- One public call of the common SymTable contract (the mutating and
observing operations that run on an existing table). -/
inductive Op (V : Type) where
  | getLength : Op V
  | put : Key → Option V → Op V
  | replace : Key → Option V → Op V
  | contains : Key → Op V
  | get : Key → Op V
  | remove : Key → Op V
  | map : Op V

/-- A result observable by the client: a boolean (put/contains), a count
(getLength), a value pointer (replace/get/remove), or — for map — the
multiset of (key, value) pairs handed to the callback (the traversal order
is unspecified by the contract, so only the multiset is compared). -/
inductive Out (V : Type) where
  | bool : Bool → Out V
  | nat : Nat → Out V
  | val : Option V → Out V
  | visited : Multiset (Key × Option V) → Out V

/-- One step of the hash-table implementation; `allocOk` is the outcome of
the resize allocation should this step attempt one. -/
def stepH {V : Type} (allocOk : Bool) (st : symtablehash.SymTable V) :
    Op V → Out V × symtablehash.SymTable V
  | .getLength => (.nat (symtablehash.SymTable_getLength st), st)
  | .put k v =>
      let p := symtablehash.SymTable_put allocOk st k v
      (.bool p.1, p.2)
  | .replace k v =>
      let p := symtablehash.SymTable_replace st k v
      (.val p.1, p.2)
  | .contains k => (.bool (symtablehash.SymTable_contains st k), st)
  | .get k => (.val (symtablehash.SymTable_get st k), st)
  | .remove k =>
      let p := symtablehash.SymTable_remove st k
      (.val p.1, p.2)
  | .map => (.visited (symtablehash.SymTable_map st : Multiset (Key × Option V)), st)

/-- One step of the linked-list implementation. -/
def stepL {V : Type} (st : symtablelist.SymTable V) :
    Op V → Out V × symtablelist.SymTable V
  | .getLength => (.nat (symtablelist.SymTable_getLength st), st)
  | .put k v =>
      let p := symtablelist.SymTable_put st k v
      (.bool p.1, p.2)
  | .replace k v =>
      let p := symtablelist.SymTable_replace st k v
      (.val p.1, p.2)
  | .contains k => (.bool (symtablelist.SymTable_contains st k), st)
  | .get k => (.val (symtablelist.SymTable_get st k), st)
  | .remove k =>
      let p := symtablelist.SymTable_remove st k
      (.val p.1, p.2)
  | .map => (.visited (symtablelist.SymTable_map st : Multiset (Key × Option V)), st)

/-- Run a call sequence against the hash table; `alloc` gives the outcome
of the resize allocation of each step (the environment's choice). -/
def runH {V : Type} (alloc : Nat → Bool) (i : Nat)
    (st : symtablehash.SymTable V) :
    List (Op V) → List (Out V) × symtablehash.SymTable V
  | [] => ([], st)
  | op :: ops =>
      let p := stepH (alloc i) st op
      let q := runH alloc (i + 1) p.2 ops
      (p.1 :: q.1, q.2)

/-- Run a call sequence against the linked list. -/
def runL {V : Type} (st : symtablelist.SymTable V) :
    List (Op V) → List (Out V) × symtablelist.SymTable V
  | [] => ([], st)
  | op :: ops =>
      let p := stepL st op
      let q := runL p.2 ops
      (p.1 :: q.1, q.2)

/-- The simulation relation of the refinement proof: both states are
well-formed, agree on the binding count and on every lookup. -/
def Sim {V : Type} (sh : symtablehash.SymTable V)
    (sl : symtablelist.SymTable V) : Prop :=
  symtablehash.WF sh ∧ symtablelist.WF sl ∧ sh.uLength = sl.uLength ∧
  ∀ k, symtablehash.find sh k = symtablelist.find sl k

theorem Sim.init : Sim (symtablehash.SymTable_new V) (symtablelist.SymTable_new V) := by
  refine ⟨symtablehash.WF.new, symtablelist.WF.newL, rfl, ?_⟩
  intro k
  rw [symtablehash.find_def]
  simp only [symtablehash.SymTable_new]
  rw [getD_replicate_nil]
  rfl

theorem Sim.map_perm {V : Type} {sh : symtablehash.SymTable V}
    {sl : symtablelist.SymTable V} (hs : Sim sh sl) :
    sh.ppBuckets.flatten.Perm sl.pHead := by
  obtain ⟨hwh, hwl, hlen, hfind⟩ := hs
  refine findB_ext_perm _ _ hwh.keys_nodup hwl.keys_nodup ?_
  intro k
  rw [← symtablehash.find_eq_findB_flatten hwh k, hfind k]
  rfl

theorem step_sim {V : Type} (a : Bool) {sh : symtablehash.SymTable V}
    {sl : symtablelist.SymTable V} (hs : Sim sh sl) (op : Op V) :
    (stepH a sh op).1 = (stepL sl op).1 ∧
    Sim (stepH a sh op).2 (stepL sl op).2 := by
  obtain ⟨hwh, hwl, hlen, hfind⟩ := hs
  cases op with
  | getLength =>
    simp only [stepH, stepL]
    exact ⟨by rw [symtablehash.SymTable_getLength,
      symtablelist.SymTable_getLength, hlen], hwh, hwl, hlen, hfind⟩
  | contains k =>
    simp only [stepH, stepL]
    refine ⟨?_, hwh, hwl, hlen, hfind⟩
    rw [symtablehash.contains_eq_find, symtablelist.contains_eq_findL, hfind k]
  | get k =>
    simp only [stepH, stepL]
    refine ⟨?_, hwh, hwl, hlen, hfind⟩
    rw [symtablehash.get_eq_find, symtablelist.get_eq_findL, hfind k]
  | map =>
    simp only [stepH, stepL]
    refine ⟨?_, hwh, hwl, hlen, hfind⟩
    have hp : sh.ppBuckets.flatten.Perm sl.pHead :=
      Sim.map_perm ⟨hwh, hwl, hlen, hfind⟩
    rw [symtablehash.SymTable_map, symtablelist.SymTable_map]
    exact congrArg Out.visited (Multiset.coe_eq_coe.mpr hp)
  | replace k v =>
    simp only [stepH, stepL]
    refine ⟨?_, symtablehash.replace_WF hwh k v,
      symtablelist.replace_WFL hwl k v, hlen, ?_⟩
    · rw [symtablehash.replace_fst_eq, symtablelist.replace_fst_eqL, hfind k]
    · intro k'
      rw [symtablehash.replace_find sh k v hwh.buckets_len hwh.count_pos k',
        symtablelist.replace_findL sl k v k', hfind k, hfind k']
  | put k v =>
    cases hf : symtablehash.find sh k with
    | some w =>
      have hfl : symtablelist.find sl k ≠ none := by
        rw [← hfind k, hf]
        exact fun he => Option.noConfusion he
      have hfh : symtablehash.find sh k ≠ none := by
        rw [hf]
        exact fun he => Option.noConfusion he
      simp only [stepH, stepL]
      rw [symtablehash.put_dup hfh a v, symtablelist.put_dupL hfl v]
      exact ⟨rfl, hwh, hwl, hlen, hfind⟩
    | none =>
      have hfl : symtablelist.find sl k = none := by rw [← hfind k, hf]
      obtain ⟨hb1, hw1, hl1, hfk1, hne1, _⟩ := symtablehash.put_fresh hwh hf a v
      obtain ⟨hb2, hw2, hl2, hfk2, hne2, _⟩ := symtablelist.put_freshL hwl hfl v
      simp only [stepH, stepL]
      refine ⟨by rw [hb1, hb2], hw1, hw2, by rw [hl1, hl2, hlen], ?_⟩
      intro k'
      by_cases hk : k' = k
      · subst hk
        rw [hfk1, hfk2]
      · rw [hne1 k' hk, hne2 k' hk, hfind k']
  | remove k =>
    cases hf : symtablehash.find sh k with
    | none =>
      have hfl : symtablelist.find sl k = none := by rw [← hfind k, hf]
      simp only [stepH, stepL]
      rw [symtablehash.remove_absent sh k hf, symtablelist.remove_absentL sl k hfl]
      exact ⟨rfl, hwh, hwl, hlen, hfind⟩
    | some v =>
      have hfl : symtablelist.find sl k = some v := by rw [← hfind k, hf]
      obtain ⟨hr1, hw1, hl1, _, _, hfk1, hne1, _⟩ :=
        symtablehash.remove_found hwh hf
      obtain ⟨hr2, hw2, hl2, hfk2, hne2, _⟩ := symtablelist.remove_foundL hwl hfl
      simp only [stepH, stepL]
      refine ⟨by rw [hr1, hr2], hw1, hw2, by omega, ?_⟩
      intro k'
      by_cases hk : k' = k
      · subst hk
        rw [hfk1, hfk2]
      · rw [hne1 k' hk, hne2 k' hk, hfind k']

theorem run_sim {V : Type} (alloc : Nat → Bool) (ops : List (Op V)) :
    ∀ (i : Nat) {sh : symtablehash.SymTable V} {sl : symtablelist.SymTable V},
      Sim sh sl →
      (runH alloc i sh ops).1 = (runL sl ops).1 ∧
      Sim (runH alloc i sh ops).2 (runL sl ops).2 := by
  induction ops with
  | nil =>
    intro i sh sl hs
    exact ⟨rfl, hs⟩
  | cons op rest ih =>
    intro i sh sl hs
    obtain ⟨ho, hs1⟩ := step_sim (alloc i) hs op
    obtain ⟨hr, hs2⟩ := ih (i + 1) hs1
    simp only [runH, runL]
    exact ⟨by rw [ho, hr], hs2⟩

theorem step_cap {V : Type} (a : Bool) (st : symtablehash.SymTable V)
    (op : Op V)
    (hcap : symtablehash.numPrimes ≤ st.uPrimeIndex + 1) :
    (stepH a st op).2.uBucketCount = st.uBucketCount ∧
    (stepH a st op).2.uPrimeIndex = st.uPrimeIndex := by
  cases op with
  | getLength => exact ⟨rfl, rfl⟩
  | contains k => exact ⟨rfl, rfl⟩
  | get k => exact ⟨rfl, rfl⟩
  | map => exact ⟨rfl, rfl⟩
  | replace k v => exact ⟨rfl, rfl⟩
  | remove k =>
    simp only [stepH, symtablehash.SymTable_remove]
    rcases removeB (symtablehash.bucketAt st
      (symtablehash.SymTable_hash k st.uBucketCount)) k with ⟨r, bkt⟩
    cases r with
    | none => exact ⟨rfl, rfl⟩
    | some v => exact ⟨rfl, rfl⟩
  | put k v =>
    simp only [stepH, symtablehash.SymTable_put]
    by_cases hc : containsB (symtablehash.bucketAt st
        (symtablehash.SymTable_hash k st.uBucketCount)) k = true
    · rw [hc]
      simp
    · rw [Bool.not_eq_true] at hc
      rw [hc]
      simp only [Bool.false_eq_true, if_false]
      by_cases htrig : st.uLength + 1 > st.uBucketCount
      · rw [if_pos htrig]
        rw [symtablehash.expandTable_at_cap
          { ppBuckets := st.ppBuckets.set
              (symtablehash.SymTable_hash k st.uBucketCount)
              ((k, v) :: symtablehash.bucketAt st
                (symtablehash.SymTable_hash k st.uBucketCount)),
            uBucketCount := st.uBucketCount, uLength := st.uLength + 1,
            uPrimeIndex := st.uPrimeIndex } a hcap]
        exact ⟨rfl, rfl⟩
      · rw [if_neg htrig]
        exact ⟨rfl, rfl⟩

theorem run_cap {V : Type} (alloc : Nat → Bool) (ops : List (Op V)) :
    ∀ (i : Nat) (st : symtablehash.SymTable V),
      symtablehash.numPrimes ≤ st.uPrimeIndex + 1 →
      (runH alloc i st ops).2.uBucketCount = st.uBucketCount ∧
      (runH alloc i st ops).2.uPrimeIndex = st.uPrimeIndex := by
  induction ops with
  | nil =>
    intro i st hcap
    exact ⟨rfl, rfl⟩
  | cons op rest ih =>
    intro i st hcap
    obtain ⟨hb, hp⟩ := step_cap (alloc i) st op hcap
    obtain ⟨hb2, hp2⟩ := ih (i + 1) (stepH (alloc i) st op).2 (by rw [hp]; exact hcap)
    simp only [runH]
    exact ⟨hb2.trans hb, hp2.trans hp⟩

namespace symtablehash

variable {V : Type}

theorem put_WF {st : SymTable V} (hw : WF st) (ok : Bool) (k : Key)
    (v : Option V) : WF (SymTable_put ok st k v).2 := by
  by_cases hf : find st k = none
  · exact (put_fresh hw hf ok v).2.1
  · rw [put_dup hf ok v]
    exact hw

theorem remove_WF {st : SymTable V} (hw : WF st) (k : Key) :
    WF (SymTable_remove st k).2 := by
  cases hf : find st k with
  | none =>
    rw [remove_absent st k hf]
    exact hw
  | some v => exact (remove_found hw hf).2.1

/-- The hash-table states reachable through the public interface: a fresh
table followed by any sequence of the mutating operations. -/
inductive Reachable : SymTable V → Prop where
  | new : Reachable (SymTable_new V)
  | put (ok : Bool) (k : Key) (v : Option V) {st : SymTable V} :
      Reachable st → Reachable (SymTable_put ok st k v).2
  | replace (k : Key) (v : Option V) {st : SymTable V} :
      Reachable st → Reachable (SymTable_replace st k v).2
  | remove (k : Key) {st : SymTable V} :
      Reachable st → Reachable (SymTable_remove st k).2

theorem Reachable.wf {st : SymTable V} (h : Reachable st) : WF st := by
  induction h with
  | new => exact WF.new
  | put ok k v _ ih => exact put_WF ih ok k v
  | replace k v _ ih => exact replace_WF ih k v
  | remove k _ ih => exact remove_WF ih k

end symtablehash

namespace symtablehash

variable {V : Type}

theorem find_none_of_contains_false {st : SymTable V} {k : Key}
    (h : SymTable_contains st k = false) : find st k = none := by
  rw [contains_eq_find] at h
  cases hf : find st k with
  | none => rfl
  | some w => rw [hf] at h; simp at h

/-- The find facts of the state just after the insertion step of
`SymTable_put` (before any resize), needing only that the bucket array has
`uBucketCount` entries and that the count is positive. -/
theorem insert_find (st : SymTable V) (k : Key) (v : Option V)
    (hidx : SymTable_hash k st.uBucketCount < st.ppBuckets.length) :
    find { st with
      ppBuckets := st.ppBuckets.set (SymTable_hash k st.uBucketCount)
        ((k, v) :: st.ppBuckets.getD (SymTable_hash k st.uBucketCount) []),
      uLength := st.uLength + 1 } k = some v ∧
    (∀ k', k' ≠ k → find { st with
      ppBuckets := st.ppBuckets.set (SymTable_hash k st.uBucketCount)
        ((k, v) :: st.ppBuckets.getD (SymTable_hash k st.uBucketCount) []),
      uLength := st.uLength + 1 } k' = find st k') := by
  constructor
  · rw [find_def]
    simp only
    rw [getD_set_self _ _ _ _ hidx]
    simp [findB]
  · intro k' hk'
    rw [find_def, find_def]
    simp only
    by_cases hb : SymTable_hash k' st.uBucketCount = SymTable_hash k st.uBucketCount
    · rw [hb, getD_set_self _ _ _ _ hidx]
      have : ¬ k = k' := fun he => hk' he.symm
      simp [findB, this]
    · rw [getD_set_ne _ _ _ (fun he => hb he.symm)]

end symtablehash

namespace symtablelist

variable {V : Type}

theorem find_none_of_contains_falseL {st : SymTable V} {k : Key}
    (h : SymTable_contains st k = false) : find st k = none := by
  rw [contains_eq_findL] at h
  cases hf : find st k with
  | none => rfl
  | some w => rw [hf] at h; simp at h

end symtablelist

/-- C4: for every key and every bucket count greater than 0, the hash is
the byte fold `hash = hash * 65599 + byteValue` (starting at 0, wrapping
modulo `2 ^ 64`) reduced modulo the bucket count; the result lies in
`[0, bucketCount)`, and identical key and bucket count always yield the
identical index. -/
theorem C4_hash (k : Key) (n : Nat) (h : 0 < n) :
    symtablehash.SymTable_hash k n =
      (k.foldl (fun uHash b => (uHash * 65599 + b) % (2 ^ 64)) 0) % n ∧
    symtablehash.SymTable_hash k n < n ∧
    (∀ k' n', k' = k → n' = n →
      symtablehash.SymTable_hash k' n' = symtablehash.SymTable_hash k n) := by
  refine ⟨rfl, symtablehash.hash_lt k h, ?_⟩
  intro k' n' h1 h2
  rw [h1, h2]

theorem C4_hash_witness :
    0 < 509 ∧ symtablehash.SymTable_hash [97] 509 < 509 :=
  ⟨by decide, (C4_hash [97] 509 (by decide)).2.1⟩

/-- C2: from a fresh table, the call sequence put("a",1), put("b",2),
put("a",3), size, get("a"), remove("b"), size, contains("b"),
replace("a",9), get("a"), replace("z",5), size returns true, true, false,
2, 1, 2, 1, false, 1, 9, absent (NULL), 1 — on the hash-table
implementation and on the linked-list implementation alike ("a" = byte 97,
"b" = byte 98, "z" = byte 122). -/
theorem C2_scenario :
    (let t0 := symtablehash.SymTable_new Nat
     let p1 := symtablehash.SymTable_put true t0 [97] (some 1)
     let p2 := symtablehash.SymTable_put true p1.2 [98] (some 2)
     let p3 := symtablehash.SymTable_put true p2.2 [97] (some 3)
     let r1 := symtablehash.SymTable_remove p3.2 [98]
     let rp1 := symtablehash.SymTable_replace r1.2 [97] (some 9)
     let rp2 := symtablehash.SymTable_replace rp1.2 [122] (some 5)
     (p1.1, p2.1, p3.1, symtablehash.SymTable_getLength p3.2,
      symtablehash.SymTable_get p3.2 [97], r1.1,
      symtablehash.SymTable_getLength r1.2,
      symtablehash.SymTable_contains r1.2 [98], rp1.1,
      symtablehash.SymTable_get rp1.2 [97], rp2.1,
      symtablehash.SymTable_getLength rp2.2)) =
      (true, true, false, 2, some 1, some 2, 1, false, some 1, some 9,
        none, 1) ∧
    (let t0 := symtablelist.SymTable_new Nat
     let p1 := symtablelist.SymTable_put t0 [97] (some 1)
     let p2 := symtablelist.SymTable_put p1.2 [98] (some 2)
     let p3 := symtablelist.SymTable_put p2.2 [97] (some 3)
     let r1 := symtablelist.SymTable_remove p3.2 [98]
     let rp1 := symtablelist.SymTable_replace r1.2 [97] (some 9)
     let rp2 := symtablelist.SymTable_replace rp1.2 [122] (some 5)
     (p1.1, p2.1, p3.1, symtablelist.SymTable_getLength p3.2,
      symtablelist.SymTable_get p3.2 [97], r1.1,
      symtablelist.SymTable_getLength r1.2,
      symtablelist.SymTable_contains r1.2 [98], rp1.1,
      symtablelist.SymTable_get rp1.2 [97], rp2.1,
      symtablelist.SymTable_getLength rp2.2)) =
      (true, true, false, 2, some 1, some 2, 1, false, some 1, some 9,
        none, 1) := by
  exact ⟨rfl, rfl⟩

/-- C1 counterexample: NULL is a storable value, and replace reports NULL
both for a key bound to NULL and for an absent key, so the absent marker is
NOT distinguishable from a legitimately stored absent-like value.  Key
"a" = [97] is present (contains = true, stored value NULL) yet
replace("a", 5) returns the same NULL marker as replace("z", 5) on the
absent key "z" = [122]. -/
theorem C1_counterexample :
    symtablehash.SymTable_contains
      (symtablehash.SymTable_put true (symtablehash.SymTable_new Nat) [97]
        none).2 [97] = true ∧
    (symtablehash.SymTable_replace
      (symtablehash.SymTable_put true (symtablehash.SymTable_new Nat) [97]
        none).2 [97] (some 5)).1 = none ∧
    (symtablehash.SymTable_replace
      (symtablehash.SymTable_put true (symtablehash.SymTable_new Nat) [97]
        none).2 [122] (some 5)).1 = none := by
  exact ⟨rfl, rfl, rfl⟩

/-- C1 (amended): for every table and key not present in it, replace
performs no insertion — the state is unchanged, hence size is unchanged and
contains stays false — and returns the NULL absent marker.  The marker is
however NOT distinguishable from a legitimately stored NULL value: replace
on a key whose stored value is NULL returns that same NULL. -/
theorem C1_replace_absent {V : Type} (sh : symtablehash.SymTable V)
    (sl : symtablelist.SymTable V) (k : Key) (v : Option V)
    (hh : symtablehash.SymTable_contains sh k = false)
    (hl : symtablelist.SymTable_contains sl k = false) :
    symtablehash.SymTable_replace sh k v = (none, sh) ∧
    symtablelist.SymTable_replace sl k v = (none, sl) ∧
    symtablehash.SymTable_getLength (symtablehash.SymTable_replace sh k v).2
      = symtablehash.SymTable_getLength sh ∧
    symtablehash.SymTable_contains (symtablehash.SymTable_replace sh k v).2 k
      = false ∧
    symtablelist.SymTable_getLength (symtablelist.SymTable_replace sl k v).2
      = symtablelist.SymTable_getLength sl ∧
    symtablelist.SymTable_contains (symtablelist.SymTable_replace sl k v).2 k
      = false ∧
    (∀ sh2 : symtablehash.SymTable V, symtablehash.find sh2 k = some none →
      (symtablehash.SymTable_replace sh2 k v).1 = none) ∧
    (∀ sl2 : symtablelist.SymTable V, symtablelist.find sl2 k = some none →
      (symtablelist.SymTable_replace sl2 k v).1 = none) := by
  have hfh := symtablehash.find_none_of_contains_false hh
  have hfl := symtablelist.find_none_of_contains_falseL hl
  have e1 := symtablehash.replace_absent sh k v hfh
  have e2 := symtablelist.replace_absentL sl k v hfl
  refine ⟨e1, e2, by rw [e1], by rw [e1]; exact hh, by rw [e2],
    by rw [e2]; exact hl, ?_, ?_⟩
  · intro sh2 h2
    rw [symtablehash.replace_fst_eq, h2]
    rfl
  · intro sl2 h2
    rw [symtablelist.replace_fst_eqL, h2]
    rfl

theorem C1_replace_absent_witness :
    symtablehash.SymTable_contains (symtablehash.SymTable_new Nat) [97]
      = false ∧
    symtablelist.SymTable_contains (symtablelist.SymTable_new Nat) [97]
      = false ∧
    symtablehash.SymTable_replace (symtablehash.SymTable_new Nat) [97]
      (some 5) = (none, symtablehash.SymTable_new Nat) :=
  ⟨rfl, rfl, (C1_replace_absent (symtablehash.SymTable_new Nat)
    (symtablelist.SymTable_new Nat) [97] (some 5) rfl rfl).1⟩

/-- C3: every sequence of public calls (getLength, put, replace, contains,
get, remove, map), issued with the same arguments against a fresh
linked-list table and a fresh hash table, yields the same result sequence,
for every environment choice of resize-allocation outcomes — map compared
as the multiset of visited bindings, its traversal order being unspecified
by the contract. -/
theorem C3_refinement {V : Type} (ops : List (Op V)) (alloc : Nat → Bool) :
    (runH alloc 0 (symtablehash.SymTable_new V) ops).1 =
      (runL (symtablelist.SymTable_new V) ops).1 :=
  (run_sim alloc ops 0 Sim.init).1

/-- C7: at every reachable hash-table state, the stored length equals the
total number of bindings summed over all buckets; put increments it by one
exactly on success (no mutation at all on failure), remove decrements it by
one exactly when the key is present (no mutation otherwise), and replace
never changes it. -/
theorem C7_length_invariant {V : Type} (st : symtablehash.SymTable V)
    (hr : symtablehash.Reachable st) :
    symtablehash.SymTable_getLength st = (st.ppBuckets.map List.length).sum ∧
    (∀ (ok : Bool) (k : Key) (v : Option V),
      ((symtablehash.SymTable_put ok st k v).1 = true →
        symtablehash.SymTable_getLength (symtablehash.SymTable_put ok st k v).2
          = symtablehash.SymTable_getLength st + 1) ∧
      ((symtablehash.SymTable_put ok st k v).1 = false →
        (symtablehash.SymTable_put ok st k v).2 = st)) ∧
    (∀ k : Key,
      (symtablehash.SymTable_contains st k = true →
        symtablehash.SymTable_getLength (symtablehash.SymTable_remove st k).2
          + 1 = symtablehash.SymTable_getLength st) ∧
      (symtablehash.SymTable_contains st k = false →
        (symtablehash.SymTable_remove st k).2 = st)) ∧
    (∀ (k : Key) (v : Option V),
      symtablehash.SymTable_getLength (symtablehash.SymTable_replace st k v).2
        = symtablehash.SymTable_getLength st) := by
  have hw := hr.wf
  refine ⟨?_, ?_, ?_, ?_⟩
  · rw [symtablehash.SymTable_getLength, hw.len_eq, List.length_flatten]
  · intro ok k v
    constructor
    · intro hok
      by_cases hf : symtablehash.find st k = none
      · exact (symtablehash.put_fresh hw hf ok v).2.2.1
      · rw [symtablehash.put_dup hf ok v] at hok
        simp at hok
    · intro hok
      by_cases hf : symtablehash.find st k = none
      · rw [(symtablehash.put_fresh hw hf ok v).1] at hok
        simp at hok
      · rw [symtablehash.put_dup hf ok v]
  · intro k
    constructor
    · intro hc
      rw [symtablehash.contains_eq_find] at hc
      cases hf : symtablehash.find st k with
      | none => rw [hf] at hc; simp at hc
      | some v => exact (symtablehash.remove_found hw hf).2.2.1
    · intro hc
      rw [symtablehash.remove_absent st k
        (symtablehash.find_none_of_contains_false hc)]
  · intro k v
    rfl

theorem C7_length_invariant_witness :
    symtablehash.SymTable_getLength
      (symtablehash.SymTable_put true (symtablehash.SymTable_new Nat) [97]
        (some 1)).2 =
      ((symtablehash.SymTable_put true (symtablehash.SymTable_new Nat) [97]
        (some 1)).2.ppBuckets.map List.length).sum :=
  (C7_length_invariant _ (symtablehash.Reachable.put true [97] (some 1)
    symtablehash.Reachable.new)).1

/-- C8: at every reachable hash-table state, every binding resides in the
bucket its key hashes to under the current bucket count; and running the
resizer on such a state re-establishes this placement against the new
capacity. -/
theorem C8_placement_invariant {V : Type} (st : symtablehash.SymTable V)
    (hr : symtablehash.Reachable st) :
    (∀ i, i < st.ppBuckets.length → ∀ b ∈ st.ppBuckets.getD i [],
      symtablehash.SymTable_hash b.1 st.uBucketCount = i) ∧
    (∀ ok : Bool, ∀ i,
      i < (symtablehash.expandTable ok st).2.ppBuckets.length →
      ∀ b ∈ (symtablehash.expandTable ok st).2.ppBuckets.getD i [],
        symtablehash.SymTable_hash b.1
          (symtablehash.expandTable ok st).2.uBucketCount = i) := by
  have hw := hr.wf
  exact ⟨hw.placed, fun ok => (symtablehash.expand_preserve hw ok).1.placed⟩

set_option maxRecDepth 100000 in
theorem C8_placement_invariant_witness :
    symtablehash.SymTable_hash [97]
      (symtablehash.SymTable_put true (symtablehash.SymTable_new Nat) [97]
        (some 1)).2.uBucketCount = 97 :=
  (C8_placement_invariant _ (symtablehash.Reachable.put true [97] (some 1)
    symtablehash.Reachable.new)).1 97 (by decide) ([97], some 1) (by decide)

/-- C5: after every successful put a resize is attempted exactly when the
new length exceeds the bucket count: when it does not, the counts are
untouched and the bucket array changed only by the insertion; when it does
and the growth table has a next entry, the table advances exactly one step
in the growth table (509, 1021, 2039, 4093, 8191, 16381, 32749, 65521),
relinking every binding into the bucket of its rehashed index under the new
capacity; when already at the last entry, the resize is a no-op and the
capacity stays at the maximum through every further operation sequence. -/
theorem C5_resize_policy {V : Type} (sh : symtablehash.SymTable V) (k : Key)
    (v : Option V)
    (hlen : sh.ppBuckets.length = sh.uBucketCount)
    (hpos : 0 < sh.uBucketCount)
    (hfresh : symtablehash.SymTable_contains sh k = false) :
    symtablehash.primes = [509, 1021, 2039, 4093, 8191, 16381, 32749, 65521] ∧
    (symtablehash.SymTable_put true sh k v).1 = true ∧
    (sh.uLength + 1 ≤ sh.uBucketCount →
      (symtablehash.SymTable_put true sh k v).2.uBucketCount
          = sh.uBucketCount ∧
      (symtablehash.SymTable_put true sh k v).2.uPrimeIndex
          = sh.uPrimeIndex ∧
      (symtablehash.SymTable_put true sh k v).2.ppBuckets =
        sh.ppBuckets.set (symtablehash.SymTable_hash k sh.uBucketCount)
          ((k, v) :: sh.ppBuckets.getD
            (symtablehash.SymTable_hash k sh.uBucketCount) [])) ∧
    (sh.uLength + 1 > sh.uBucketCount →
      sh.uPrimeIndex + 1 < symtablehash.numPrimes →
      (symtablehash.SymTable_put true sh k v).2.uPrimeIndex
          = sh.uPrimeIndex + 1 ∧
      (symtablehash.SymTable_put true sh k v).2.uBucketCount =
        symtablehash.primes.getD (sh.uPrimeIndex + 1) 0 ∧
      (∀ i, i < (symtablehash.SymTable_put true sh k v).2.ppBuckets.length →
        ∀ b ∈ (symtablehash.SymTable_put true sh k v).2.ppBuckets.getD i [],
          symtablehash.SymTable_hash b.1
            (symtablehash.SymTable_put true sh k v).2.uBucketCount = i) ∧
      (symtablehash.SymTable_put true sh k v).2.ppBuckets.flatten.Perm
        ((k, v) :: sh.ppBuckets.flatten)) ∧
    (sh.uLength + 1 > sh.uBucketCount →
      symtablehash.numPrimes ≤ sh.uPrimeIndex + 1 →
      (symtablehash.SymTable_put true sh k v).2.uBucketCount
          = sh.uBucketCount ∧
      (symtablehash.SymTable_put true sh k v).2.uPrimeIndex
          = sh.uPrimeIndex ∧
      (∀ (ops : List (Op V)) (alloc : Nat → Bool) (i : Nat),
        (runH alloc i (symtablehash.SymTable_put true sh k v).2 ops).2.uBucketCount
          = (symtablehash.SymTable_put true sh k v).2.uBucketCount)) := by
  have hfn := symtablehash.find_none_of_contains_false hfresh
  have hc : containsB (sh.ppBuckets.getD
      (symtablehash.SymTable_hash k sh.uBucketCount) []) k = false := by
    rw [containsB_eq_isSome]
    have h0 : findB (sh.ppBuckets.getD
        (symtablehash.SymTable_hash k sh.uBucketCount) []) k = none := hfn
    rw [h0]
    rfl
  have hidx : symtablehash.SymTable_hash k sh.uBucketCount
      < sh.ppBuckets.length := by
    rw [hlen]
    exact symtablehash.hash_lt k hpos
  refine ⟨rfl, ?_, ?_, ?_, ?_⟩
  · by_cases htrig : sh.uLength + 1 > sh.uBucketCount
    · simp only [symtablehash.SymTable_put, symtablehash.bucketAt]
      rw [hc]
      simp [htrig]
    · simp only [symtablehash.SymTable_put, symtablehash.bucketAt]
      rw [hc]
      simp [htrig]
  · intro hno
    have htrig : ¬ (sh.uLength + 1 > sh.uBucketCount) := not_lt.mpr hno
    have hre : symtablehash.SymTable_put true sh k v = (true, { sh with
        ppBuckets := sh.ppBuckets.set
          (symtablehash.SymTable_hash k sh.uBucketCount)
          ((k, v) :: sh.ppBuckets.getD
            (symtablehash.SymTable_hash k sh.uBucketCount) []),
        uLength := sh.uLength + 1 }) := by
      simp only [symtablehash.SymTable_put, symtablehash.bucketAt]
      rw [hc]
      simp [htrig]
    rw [hre]
    exact ⟨rfl, rfl, rfl⟩
  · intro htrig hnc
    have hre : symtablehash.SymTable_put true sh k v = (true,
        (symtablehash.expandTable true { sh with
          ppBuckets := sh.ppBuckets.set
            (symtablehash.SymTable_hash k sh.uBucketCount)
            ((k, v) :: sh.ppBuckets.getD
              (symtablehash.SymTable_hash k sh.uBucketCount) []),
          uLength := sh.uLength + 1 }).2) := by
      simp only [symtablehash.SymTable_put, symtablehash.bucketAt]
      rw [hc]
      simp [htrig]
    have hcapI : ¬ (sh.uPrimeIndex + 1 ≥ symtablehash.numPrimes) :=
      not_le.mpr hnc
    have hn : 0 < symtablehash.primes.getD (sh.uPrimeIndex + 1) 0 :=
      symtablehash.primes_pos _ hnc
    have hpermI : (sh.ppBuckets.set
        (symtablehash.SymTable_hash k sh.uBucketCount)
        ((k, v) :: sh.ppBuckets.getD
          (symtablehash.SymTable_hash k sh.uBucketCount) [])).flatten.Perm
        ((k, v) :: sh.ppBuckets.flatten) :=
      (flatten_set_perm _ _ _ hidx).trans
        ((flatten_perm_getD sh.ppBuckets _ hidx).symm.cons (k, v))
    have hredE : (symtablehash.expandTable true { sh with
        ppBuckets := sh.ppBuckets.set
          (symtablehash.SymTable_hash k sh.uBucketCount)
          ((k, v) :: sh.ppBuckets.getD
            (symtablehash.SymTable_hash k sh.uBucketCount) []),
        uLength := sh.uLength + 1 }).2 =
        { ppBuckets := (sh.ppBuckets.set
            (symtablehash.SymTable_hash k sh.uBucketCount)
            ((k, v) :: sh.ppBuckets.getD
              (symtablehash.SymTable_hash k sh.uBucketCount) [])).flatten.foldl
            (symtablehash.rehashInsert
              (symtablehash.primes.getD (sh.uPrimeIndex + 1) 0))
            (List.replicate (symtablehash.primes.getD (sh.uPrimeIndex + 1) 0) []),
          uBucketCount := symtablehash.primes.getD (sh.uPrimeIndex + 1) 0,
          uLength := sh.uLength + 1,
          uPrimeIndex := sh.uPrimeIndex + 1 } := by
      simp only [symtablehash.expandTable, hcapI, if_false, if_true]
      rw [foldl_flatten_eq]
    rw [hre, hredE]
    refine ⟨rfl, rfl, ?_, ?_⟩
    · simp only
      intro i hi b hb
      refine symtablehash.rehash_foldl_placed _ hn _ _ (by simp) ?_ i ?_ b hb
      · intro j hj c hc2
        rw [getD_replicate_nil] at hc2
        simp at hc2
      · rw [symtablehash.rehash_foldl_length _ _ _ (by simp)] at hi
        exact hi
    · simp only
      refine (symtablehash.rehash_foldl_flatten_perm _ hn _ _ (by simp)).trans ?_
      rw [flatten_replicate_nil, List.append_nil]
      exact hpermI
  · intro htrig hcap
    have hre : symtablehash.SymTable_put true sh k v = (true,
        (symtablehash.expandTable true { sh with
          ppBuckets := sh.ppBuckets.set
            (symtablehash.SymTable_hash k sh.uBucketCount)
            ((k, v) :: sh.ppBuckets.getD
              (symtablehash.SymTable_hash k sh.uBucketCount) []),
          uLength := sh.uLength + 1 }).2) := by
      simp only [symtablehash.SymTable_put, symtablehash.bucketAt]
      rw [hc]
      simp [htrig]
    rw [hre, symtablehash.expandTable_at_cap { sh with
      ppBuckets := sh.ppBuckets.set
        (symtablehash.SymTable_hash k sh.uBucketCount)
        ((k, v) :: sh.ppBuckets.getD
          (symtablehash.SymTable_hash k sh.uBucketCount) []),
      uLength := sh.uLength + 1 } true hcap]
    refine ⟨rfl, rfl, ?_⟩
    intro ops alloc i
    exact (run_cap alloc ops i { sh with
      ppBuckets := sh.ppBuckets.set
        (symtablehash.SymTable_hash k sh.uBucketCount)
        ((k, v) :: sh.ppBuckets.getD
          (symtablehash.SymTable_hash k sh.uBucketCount) []),
      uLength := sh.uLength + 1 } hcap).1

/-- A small hash-table state over two buckets, used to exercise the resize
branches of `SymTable_put` on concrete input. -/
def smallTable : symtablehash.SymTable Nat :=
  { ppBuckets := [[([1], some 10)], [([2], some 20)]],
    uBucketCount := 2, uLength := 2, uPrimeIndex := 0 }

theorem C5_resize_policy_witness :
    smallTable.ppBuckets.length = smallTable.uBucketCount ∧
    0 < smallTable.uBucketCount ∧
    symtablehash.SymTable_contains smallTable [3] = false ∧
    (symtablehash.SymTable_put true smallTable [3] (some 30)).2.uBucketCount
      = symtablehash.primes.getD (0 + 1) 0 := by
  refine ⟨rfl, by decide, by decide, ?_⟩
  exact ((C5_resize_policy smallTable [3] (some 30) rfl (by decide)
    (by decide)).2.2.2.1 (by decide) (by decide)).2.1

/-- C6: when the allocation of the new bucket array fails during a
triggered resize, the resize is abandoned atomically — bucket count, growth
index and every binding stay as they were, the bucket array having changed
only by the insertion — while the triggering put still returns success and
its binding remains in the table. -/
theorem C6_resize_alloc_fail {V : Type} (sh : symtablehash.SymTable V)
    (k : Key) (v : Option V)
    (hlen : sh.ppBuckets.length = sh.uBucketCount)
    (hpos : 0 < sh.uBucketCount)
    (hfresh : symtablehash.SymTable_contains sh k = false)
    (htrig : sh.uLength + 1 > sh.uBucketCount)
    (hnc : sh.uPrimeIndex + 1 < symtablehash.numPrimes) :
    (symtablehash.SymTable_put false sh k v).1 = true ∧
    (symtablehash.SymTable_put false sh k v).2.uBucketCount
        = sh.uBucketCount ∧
    (symtablehash.SymTable_put false sh k v).2.uPrimeIndex
        = sh.uPrimeIndex ∧
    (symtablehash.SymTable_put false sh k v).2.uLength = sh.uLength + 1 ∧
    (symtablehash.SymTable_put false sh k v).2.ppBuckets =
      sh.ppBuckets.set (symtablehash.SymTable_hash k sh.uBucketCount)
        ((k, v) :: sh.ppBuckets.getD
          (symtablehash.SymTable_hash k sh.uBucketCount) []) ∧
    symtablehash.find (symtablehash.SymTable_put false sh k v).2 k
        = some v ∧
    (∀ k', k' ≠ k →
      symtablehash.find (symtablehash.SymTable_put false sh k v).2 k'
        = symtablehash.find sh k') := by
  have hfn := symtablehash.find_none_of_contains_false hfresh
  have hc : containsB (sh.ppBuckets.getD
      (symtablehash.SymTable_hash k sh.uBucketCount) []) k = false := by
    rw [containsB_eq_isSome]
    have h0 : findB (sh.ppBuckets.getD
        (symtablehash.SymTable_hash k sh.uBucketCount) []) k = none := hfn
    rw [h0]
    rfl
  have hidx : symtablehash.SymTable_hash k sh.uBucketCount
      < sh.ppBuckets.length := by
    rw [hlen]
    exact symtablehash.hash_lt k hpos
  have hcapI : ¬ ((sh.uPrimeIndex + 1 : Nat) ≥ symtablehash.numPrimes) :=
    not_le.mpr hnc
  have hre : symtablehash.SymTable_put false sh k v = (true, { sh with
      ppBuckets := sh.ppBuckets.set
        (symtablehash.SymTable_hash k sh.uBucketCount)
        ((k, v) :: sh.ppBuckets.getD
          (symtablehash.SymTable_hash k sh.uBucketCount) []),
      uLength := sh.uLength + 1 }) := by
    simp only [symtablehash.SymTable_put, symtablehash.bucketAt]
    rw [hc]
    simp only [Bool.false_eq_true, if_false]
    rw [if_pos htrig]
    rw [symtablehash.expandTable_alloc_fail { sh with
      ppBuckets := sh.ppBuckets.set
        (symtablehash.SymTable_hash k sh.uBucketCount)
        ((k, v) :: sh.ppBuckets.getD
          (symtablehash.SymTable_hash k sh.uBucketCount) []),
      uLength := sh.uLength + 1 } hcapI]
  obtain ⟨hfk, hne⟩ := symtablehash.insert_find sh k v hidx
  rw [hre]
  exact ⟨rfl, rfl, rfl, rfl, rfl, hfk, hne⟩

theorem C6_resize_alloc_fail_witness :
    smallTable.ppBuckets.length = smallTable.uBucketCount ∧
    0 < smallTable.uBucketCount ∧
    symtablehash.SymTable_contains smallTable [3] = false ∧
    smallTable.uLength + 1 > smallTable.uBucketCount ∧
    smallTable.uPrimeIndex + 1 < symtablehash.numPrimes ∧
    (symtablehash.SymTable_put false smallTable [3] (some 30)).1 = true ∧
    (symtablehash.SymTable_put false smallTable [3] (some 30)).2.uBucketCount
      = smallTable.uBucketCount := by
  have h := C6_resize_alloc_fail smallTable [3] (some 30) rfl (by decide)
    (by decide) (by decide) (by decide)
  exact ⟨rfl, by decide, by decide, by decide, by decide, h.1, h.2.1⟩

/-- C9: a NULL value pointer is a legal stored value: put of NULL on a
fresh key succeeds, increments the length and makes contains true, yet
get, replace and remove on that key then return NULL — the very absent
marker, identical to what get returns on a miss — so only contains and
getLength still reflect the binding's presence.  Holds in both
implementations. -/
theorem C9_null_value {V : Type} (sh : symtablehash.SymTable V)
    (sl : symtablelist.SymTable V) (k : Key) (w : Option V) (ok : Bool)
    (hwh : symtablehash.WF sh) (hwl : symtablelist.WF sl)
    (hh : symtablehash.SymTable_contains sh k = false)
    (hl : symtablelist.SymTable_contains sl k = false) :
    ((symtablehash.SymTable_put ok sh k none).1 = true ∧
     symtablehash.SymTable_getLength (symtablehash.SymTable_put ok sh k none).2
       = symtablehash.SymTable_getLength sh + 1 ∧
     symtablehash.SymTable_contains
       (symtablehash.SymTable_put ok sh k none).2 k = true ∧
     symtablehash.SymTable_get
       (symtablehash.SymTable_put ok sh k none).2 k = none ∧
     (symtablehash.SymTable_replace
       (symtablehash.SymTable_put ok sh k none).2 k w).1 = none ∧
     (symtablehash.SymTable_remove
       (symtablehash.SymTable_put ok sh k none).2 k).1 = none ∧
     symtablehash.SymTable_get sh k = none) ∧
    ((symtablelist.SymTable_put sl k none).1 = true ∧
     symtablelist.SymTable_getLength (symtablelist.SymTable_put sl k none).2
       = symtablelist.SymTable_getLength sl + 1 ∧
     symtablelist.SymTable_contains
       (symtablelist.SymTable_put sl k none).2 k = true ∧
     symtablelist.SymTable_get
       (symtablelist.SymTable_put sl k none).2 k = none ∧
     (symtablelist.SymTable_replace
       (symtablelist.SymTable_put sl k none).2 k w).1 = none ∧
     (symtablelist.SymTable_remove
       (symtablelist.SymTable_put sl k none).2 k).1 = none ∧
     symtablelist.SymTable_get sl k = none) := by
  have hfh := symtablehash.find_none_of_contains_false hh
  have hfl := symtablelist.find_none_of_contains_falseL hl
  obtain ⟨hb1, _, hlen1, hfk1, _, _⟩ := symtablehash.put_fresh hwh hfh ok none
  obtain ⟨hb2, _, hlen2, hfk2, _, _⟩ := symtablelist.put_freshL hwl hfl none
  constructor
  · refine ⟨hb1, hlen1, ?_, ?_, ?_, ?_, ?_⟩
    · rw [symtablehash.contains_eq_find, hfk1]
      rfl
    · rw [symtablehash.get_eq_find, hfk1]
      rfl
    · rw [symtablehash.replace_fst_eq, hfk1]
      rfl
    · rw [symtablehash.remove_fst_eq, hfk1]
      rfl
    · rw [symtablehash.get_eq_find, hfh]
      rfl
  · refine ⟨hb2, hlen2, ?_, ?_, ?_, ?_, ?_⟩
    · rw [symtablelist.contains_eq_findL, hfk2]
      rfl
    · rw [symtablelist.get_eq_findL, hfk2]
      rfl
    · rw [symtablelist.replace_fst_eqL, hfk2]
      rfl
    · rw [symtablelist.remove_fst_eqL, hfk2]
      rfl
    · rw [symtablelist.get_eq_findL, hfl]
      rfl

theorem C9_null_value_witness :
    symtablehash.SymTable_contains (symtablehash.SymTable_new Nat) [97]
      = false ∧
    symtablelist.SymTable_contains (symtablelist.SymTable_new Nat) [97]
      = false ∧
    symtablehash.SymTable_contains
      (symtablehash.SymTable_put true (symtablehash.SymTable_new Nat) [97]
        none).2 [97] = true :=
  ⟨rfl, rfl, (C9_null_value (symtablehash.SymTable_new Nat)
    (symtablelist.SymTable_new Nat) [97] (some 7) true symtablehash.WF.new
    symtablelist.WF.newL rfl rfl).1.2.2.1⟩

/-- C10: put of a fresh key followed by remove of the same key
round-trips: the put succeeds, the remove returns the value just stored,
the length returns to its pre-put value, contains is false afterwards, and
every other key's binding is observably unchanged by the pair.  Holds in
both implementations. -/
theorem C10_put_remove_roundtrip {V : Type} (sh : symtablehash.SymTable V)
    (sl : symtablelist.SymTable V) (k : Key) (v : Option V) (ok : Bool)
    (hwh : symtablehash.WF sh) (hwl : symtablelist.WF sl)
    (hh : symtablehash.SymTable_contains sh k = false)
    (hl : symtablelist.SymTable_contains sl k = false) :
    ((symtablehash.SymTable_put ok sh k v).1 = true ∧
     (symtablehash.SymTable_remove
       (symtablehash.SymTable_put ok sh k v).2 k).1 = v ∧
     symtablehash.SymTable_getLength
       (symtablehash.SymTable_remove
         (symtablehash.SymTable_put ok sh k v).2 k).2
       = symtablehash.SymTable_getLength sh ∧
     symtablehash.SymTable_contains
       (symtablehash.SymTable_remove
         (symtablehash.SymTable_put ok sh k v).2 k).2 k = false ∧
     (∀ k', k' ≠ k →
       symtablehash.find
         (symtablehash.SymTable_remove
           (symtablehash.SymTable_put ok sh k v).2 k).2 k'
         = symtablehash.find sh k')) ∧
    ((symtablelist.SymTable_put sl k v).1 = true ∧
     (symtablelist.SymTable_remove
       (symtablelist.SymTable_put sl k v).2 k).1 = v ∧
     symtablelist.SymTable_getLength
       (symtablelist.SymTable_remove
         (symtablelist.SymTable_put sl k v).2 k).2
       = symtablelist.SymTable_getLength sl ∧
     symtablelist.SymTable_contains
       (symtablelist.SymTable_remove
         (symtablelist.SymTable_put sl k v).2 k).2 k = false ∧
     (∀ k', k' ≠ k →
       symtablelist.find
         (symtablelist.SymTable_remove
           (symtablelist.SymTable_put sl k v).2 k).2 k'
         = symtablelist.find sl k')) := by
  have hfh := symtablehash.find_none_of_contains_false hh
  have hfl := symtablelist.find_none_of_contains_falseL hl
  obtain ⟨hb1, hw1, hlen1, hfk1, hne1, _⟩ := symtablehash.put_fresh hwh hfh ok v
  obtain ⟨hb2, hw2, hlen2, hfk2, hne2, _⟩ := symtablelist.put_freshL hwl hfl v
  obtain ⟨hr1, _, hl1, _, _, hrk1, hrne1, _⟩ :=
    symtablehash.remove_found hw1 hfk1
  obtain ⟨hr2, _, hl2, hrk2, hrne2, _⟩ := symtablelist.remove_foundL hw2 hfk2
  constructor
  · refine ⟨hb1, hr1, ?_, ?_, ?_⟩
    · rw [symtablehash.SymTable_getLength, symtablehash.SymTable_getLength]
      omega
    · rw [symtablehash.contains_eq_find, hrk1]
      rfl
    · intro k' hk'
      rw [hrne1 k' hk', hne1 k' hk']
  · refine ⟨hb2, hr2, ?_, ?_, ?_⟩
    · rw [symtablelist.SymTable_getLength, symtablelist.SymTable_getLength]
      omega
    · rw [symtablelist.contains_eq_findL, hrk2]
      rfl
    · intro k' hk'
      rw [hrne2 k' hk', hne2 k' hk']

theorem C10_put_remove_roundtrip_witness :
    symtablehash.SymTable_contains (symtablehash.SymTable_new Nat) [97]
      = false ∧
    symtablelist.SymTable_contains (symtablelist.SymTable_new Nat) [97]
      = false ∧
    (symtablehash.SymTable_remove
      (symtablehash.SymTable_put true (symtablehash.SymTable_new Nat) [97]
        (some 3)).2 [97]).1 = some 3 :=
  ⟨rfl, rfl, (C10_put_remove_roundtrip (symtablehash.SymTable_new Nat)
    (symtablelist.SymTable_new Nat) [97] (some 3) true symtablehash.WF.new
    symtablelist.WF.newL rfl rfl).1.2.1⟩
